import Mathlib

/-!
JIT x86-64 emitter (`Source/Main.cpp`): shallow embedding and verified properties

The program keeps six global pointers (`code`, `code_end`, `wptr`, `data`,
`data_end`, `data_wptr`) into the flat memory of the process.  The embedding
threads them, together with the memory itself, through every emitter function
as an explicit `State`.  A function that can hit `Assert` returns
`Option State`; `none` is the fatal assertion.

Machine integers are `Nat`/`Int` with explicit reductions:
`u8`/`u32`/`u64` values are `Nat`, signed values (`s8`, `s32`, pointer
differences) are `Int`, and conversions between them are written out
(`toU64`, `toU32`, `toS8`, `toS32`).  Addresses are `Nat`.
-/

namespace JIT

/-! ## Constants of the source -/

/-- Modelled from the spec: the `KiloBytes` macro lives in `General.h`, which is
not part of the sources; the spec only calls the two regions "fixed-capacity".
It is taken to be the usual `n * 1024`. -/
def KiloBytes (n : Nat) : Nat := n * 1024

def CODE_SIZE : Nat := KiloBytes 4
def DATA_SIZE : Nat := KiloBytes 4

/-! Register ids (`typedef u8 Register`), in the order of the source enum. -/

def RAX : Nat := 0
def RCX : Nat := 1
def RDX : Nat := 2
def RBX : Nat := 3
def RSP : Nat := 4
def RBP : Nat := 5
def RSI : Nat := 6
def RDI : Nat := 7
def R8 : Nat := 8
def R9 : Nat := 9
def R10 : Nat := 10
def R11 : Nat := 11
def R12 : Nat := 12
def R13 : Nat := 13
def R14 : Nat := 14
def R15 : Nat := 15

/-! Addressing modes (`enum : u8`). -/

def INDIRECT : Nat := 0
def INDIRECT_8 : Nat := 1
def INDIRECT_32 : Nat := 2
def DIRECT : Nat := 3

def SCALE_1 : Nat := 0
def SCALE_2 : Nat := 1
def SCALE_4 : Nat := 2
def SCALE_8 : Nat := 3

def REXW : Nat := 0x48

/-! Condition codes (`typedef u8 Condition`). -/

def JB : Nat := 0x2
def JAE : Nat := 0x3
def JE : Nat := 0x4
def JNE : Nat := 0x5
def JBE : Nat := 0x6
def JA : Nat := 0x7
def JL : Nat := 0xc
def JGE : Nat := 0xd
def JLE : Nat := 0xe
def JG : Nat := 0xf

/-! ## Integer conversions -/

/-- Conversion of a signed value to `u64` (two's complement, sign extension). -/
def toU64 (i : Int) : Nat := (i % 2 ^ 64).toNat

/-- Conversion of a signed value to `u32`. -/
def toU32 (i : Int) : Nat := (i % 2 ^ 32).toNat

/-- The low 8 bits of `n` read as a signed byte (`s8`). -/
def toS8 (n : Nat) : Int := if n % 256 < 128 then (n % 256 : Nat) else (n % 256 : Nat) - 256

/-- The low 32 bits of `n` read as a signed 32-bit integer (`s32`). -/
def toS32 (n : Nat) : Int :=
  if n % 2 ^ 32 < 2 ^ 31 then (n % 2 ^ 32 : Nat) else (n % 2 ^ 32 : Nat) - 2 ^ 32

/-- Truncation of a signed value (a pointer difference) to `s32`. -/
def truncS32 (i : Int) : Int := toS32 (toU32 i)

/-! ## Data model -/

/-- The operand descriptor `struct RegMem`.  The anonymous union
`{ s8 disp8; s32 disp32; }` is one 4-byte little-endian storage cell `disp`;
`disp8` and `disp32` are the two views of it. -/
structure RegMem where
  mod : Nat := 0
  reg : Nat := 0
  rm : Nat := 0
  disp : Nat := 0
  scale : Nat := 0
  index : Nat := 0
  base : Nat := 0

/-- View of the union as `s8 disp8` (its first byte). -/
def RegMem.disp8 (rm : RegMem) : Int := toS8 rm.disp

/-- View of the union as `s32 disp32`. -/
def RegMem.disp32 (rm : RegMem) : Int := toS32 rm.disp

/-- The globals of the program together with the memory they point into.
`mem a` is the byte stored at address `a`. -/
structure State where
  mem : Nat → Nat
  code : Nat
  code_end : Nat
  wptr : Nat
  data : Nat
  data_end : Nat
  data_wptr : Nat

/-- Byte `i` of the little-endian representation of `v`. -/
def byteAt (v : Nat) (i : Nat) : Nat := (v >>> (8 * i)) &&& 0xFF

/-- The store `*((u64 *)a) = v`: eight bytes, little-endian, starting at `a`. -/
def store64 (mem : Nat → Nat) (a : Nat) (v : Nat) : Nat → Nat :=
  fun x => if a ≤ x ∧ x < a + 8 then byteAt (v % 2 ^ 64) (x - a) else mem x

/-- The store `*p = b` of one byte. -/
def store8 (mem : Nat → Nat) (a : Nat) (b : Nat) : Nat → Nat :=
  fun x => if x = a then b % 256 else mem x

/-- The `n` bytes of memory starting at address `a`. -/
def readBytes (mem : Nat → Nat) (a : Nat) : Nat → List Nat
  | 0 => []
  | n + 1 => mem a :: readBytes mem (a + 1) n

/-! ## The emitter -/

/-- Modelled from the spec: the `Assert` macro lives in `General.h`, which is not
part of the sources; by the spec a violated assertion is fatal ("fatal
assertion, process terminates immediately"), which is `none` here. -/
def Assert (c : Bool) (s : State) : Option State := if c then some s else none

/-- `void EmitCode(u64 bytes, int cnt)`. -/
def EmitCode (bytes : Nat) (cnt : Nat) (s : State) : Option State :=
  (Assert (decide (s.wptr + cnt < s.code_end)) s).bind fun s =>
    some { s with mem := store64 s.mem s.wptr bytes, wptr := s.wptr + cnt }

/-- `void EmitREX(RegMem rm)`. -/
def EmitREX (rm : RegMem) (s : State) : Option State :=
  EmitCode (REXW ||| ((rm.reg >>> 3) <<< 2) ||| (rm.rm >>> 3)) 1 s

/-- `void EmitREXW()`. -/
def EmitREXW (s : State) : Option State :=
  EmitCode REXW 1 s

/-- `void EmitOpcode(u64 opcode)`. -/
def EmitOpcode (opcode : Nat) (s : State) : Option State :=
  EmitCode opcode 1 s

/-- `void EmitModRM(RegMem rm)`: the ModRM byte, then the SIB byte when
`rm.rm == RSP && rm.mod != DIRECT`, then the displacement selected by `rm.mod`. -/
def EmitModRM (rm : RegMem) (s : State) : Option State :=
  (EmitCode (((rm.mod &&& 0b11) <<< 6) ||| ((rm.reg &&& 0b111) <<< 3) ||| (rm.rm &&& 0b111)) 1 s).bind
    fun s =>
  (if rm.rm = RSP ∧ rm.mod ≠ DIRECT then
      EmitCode (((rm.scale &&& 0b11) <<< 6) ||| ((rm.index &&& 0b111) <<< 3) ||| (rm.base &&& 0b111)) 1 s
    else some s).bind
    fun s =>
  if rm.mod = INDIRECT_8 then EmitCode (toU64 rm.disp8) 1 s
  else if rm.mod = INDIRECT_32 then EmitCode (toU64 rm.disp32) 4 s
  else some s

/-- `void EmitModRMOpcode(RegMem rm, u64 opcode)`. -/
def EmitModRMOpcode (rm : RegMem) (opcode : Nat) (s : State) : Option State :=
  (EmitREX rm s).bind fun s => (EmitOpcode opcode s).bind fun s => EmitModRM rm s

/-- `strlen`: the number of bytes before the first NUL.  A C string is given as
the list of its bytes; the terminating NUL is implicit at the end of the list. -/
def strlen (str : List Nat) : Nat := (str.takeWhile (fun c => c ≠ 0)).length

/-- `u8 *WriteStringToData(const char *str)`: returns `result` and the new state.
`int len = strlen(str)` truncates to `s32`. -/
def WriteStringToData (str : List Nat) (s : State) : Nat × State :=
  let result := s.data_wptr
  let len : Int := toS32 (strlen str)
  let mem1 := (List.range len.toNat).foldl (fun m i => store8 m (result + i) (str.getD i 0)) s.mem
  let mem2 := store8 mem1 ((result : Int) + len).toNat 0
  (result, { s with mem := mem2, data_wptr := ((s.data_wptr : Int) + (len + 1)).toNat })

/-! ## The instruction macros

Each `INST_*` macro of the source is a function of the macro arguments followed
by the arguments of the generated function. -/

/-- `INST_ZO(name, opcode)`. -/
def INST_ZO (opcode : Nat) (s : State) : Option State :=
  EmitOpcode opcode s

/-- `INST_O(name, opcode)`. -/
def INST_O (opcode : Nat) (reg : Nat) (s : State) : Option State :=
  EmitOpcode (opcode + reg) s

/-- `INST_D(name, opcode, offset_len)`; `offset` is an `s32`. -/
def INST_D (opcode : Nat) (offset_len : Nat) (offset : Int) (s : State) : Option State :=
  (EmitOpcode opcode s).bind fun s => EmitCode (toU64 offset) offset_len s

/-- `INST_OI(name, opcode)`; `imm` is a `u64`. -/
def INST_OI (opcode : Nat) (reg : Nat) (imm : Nat) (s : State) : Option State :=
  (EmitREXW s).bind fun s => (EmitOpcode (opcode + reg) s).bind fun s => EmitCode imm 8 s

/-- `INST_RM(name, opcode)`. -/
def INST_RM (opcode : Nat) (rm : RegMem) (s : State) : Option State :=
  EmitModRMOpcode rm opcode s

/-- `INST_M(name, opcode, regv)`. -/
def INST_M (opcode : Nat) (regv : Nat) (rm : RegMem) (s : State) : Option State :=
  let rm := { rm with reg := regv }
  (EmitOpcode opcode s).bind fun s => EmitModRM rm s

/-- `INST_MI(name, opcode, regv)`; `imm` is a `u32`. -/
def INST_MI (opcode : Nat) (regv : Nat) (rm : RegMem) (imm : Nat) (s : State) : Option State :=
  let rm := { rm with reg := regv }
  (EmitModRMOpcode rm opcode s).bind fun s => EmitCode imm 4 s

/-! ## The instruction catalog -/

def Push := INST_O 0x50
def Pop := INST_O 0x58
def Ret := INST_ZO 0xc3

def MovRegImm := INST_OI 0xb8
def MovRMImm := INST_MI 0xc7 0
def MovRMReg := INST_RM 0x89
def MovRegRM := INST_RM 0x8b

def AddRMImm := INST_MI 0x81 0
def AddRMReg := INST_RM 0x01
def AddRegRM := INST_RM 0x03

def SubRMImm := INST_MI 0x81 5
def SubRMReg := INST_RM 0x29
def SubRegRM := INST_RM 0x2b

def CmpRMImm := INST_MI 0x81 7
def CmpRMReg := INST_RM 0x39
def CmpRegRM := INST_RM 0x3b

def JmpRel8 := INST_D 0xeb 1
def JmpRel32 := INST_D 0xe9 4

def Call := INST_M 0xff 2

/-- `void JmpCond(Condition cond, u8 *target)`.  `max_offset` is the pointer
difference truncated to `s32`; the test converts it to `u32`.  The global `wptr`
is read again after each emit. -/
def JmpCond (cond : Nat) (target : Nat) (s : State) : Option State :=
  let max_offset : Int := truncS32 ((target : Int) - ((s.wptr : Int) + 6))
  if toU32 max_offset < 255 then
    (EmitOpcode (0x70 + cond) s).bind fun s =>
      EmitCode (toU64 ((target : Int) - ((s.wptr : Int) + 1))) 1 s
  else
    (EmitOpcode 0x0f s).bind fun s =>
    (EmitOpcode (0x80 + cond) s).bind fun s =>
      EmitCode (toU64 ((target : Int) - ((s.wptr : Int) + 4))) 4 s

/-! ## Encoder calls as data

`Instr` names one call of a catalog function (or of `JmpCond`) with its
arguments, so that properties can quantify over "every catalog instruction" and
over sequences of calls. -/

inductive Instr where
  | Push (reg : Nat)
  | Pop (reg : Nat)
  | Ret
  | MovRegImm (reg : Nat) (imm : Nat)
  | MovRMImm (rm : RegMem) (imm : Nat)
  | MovRMReg (rm : RegMem)
  | MovRegRM (rm : RegMem)
  | AddRMImm (rm : RegMem) (imm : Nat)
  | AddRMReg (rm : RegMem)
  | AddRegRM (rm : RegMem)
  | SubRMImm (rm : RegMem) (imm : Nat)
  | SubRMReg (rm : RegMem)
  | SubRegRM (rm : RegMem)
  | CmpRMImm (rm : RegMem) (imm : Nat)
  | CmpRMReg (rm : RegMem)
  | CmpRegRM (rm : RegMem)
  | JmpRel8 (offset : Int)
  | JmpRel32 (offset : Int)
  | Call (rm : RegMem)
  | JmpCond (cond : Nat) (target : Nat)

/-- Performing one encoder call. -/
def exec : Instr → State → Option State
  | .Push reg => Push reg
  | .Pop reg => Pop reg
  | .Ret => Ret
  | .MovRegImm reg imm => MovRegImm reg imm
  | .MovRMImm rm imm => MovRMImm rm imm
  | .MovRMReg rm => MovRMReg rm
  | .MovRegRM rm => MovRegRM rm
  | .AddRMImm rm imm => AddRMImm rm imm
  | .AddRMReg rm => AddRMReg rm
  | .AddRegRM rm => AddRegRM rm
  | .SubRMImm rm imm => SubRMImm rm imm
  | .SubRMReg rm => SubRMReg rm
  | .SubRegRM rm => SubRegRM rm
  | .CmpRMImm rm imm => CmpRMImm rm imm
  | .CmpRMReg rm => CmpRMReg rm
  | .CmpRegRM rm => CmpRegRM rm
  | .JmpRel8 offset => JmpRel8 offset
  | .JmpRel32 offset => JmpRel32 offset
  | .Call rm => Call rm
  | .JmpCond cond target => JmpCond cond target

/-- Performing a sequence of encoder calls in order; `none` as soon as one of
them hits the assertion. -/
def run : List Instr → State → Option State
  | [], s => some s
  | i :: is, s => (exec i s).bind (run is)

/-- The bytes of the code region from address `p` up to the write cursor. -/
def emittedFrom (p : Nat) (s : State) : List Nat := readBytes s.mem p (s.wptr - p)

/-- The byte sequence one call emits: what lies between the cursor at which
the call started and the cursor it leaves, read right after the call. -/
def emitted (i : Instr) (s : State) : List Nat :=
  match exec i s with
  | some s1 => emittedFrom s.wptr s1
  | none => []

/-- The concatenation, in call order, of the byte sequences the calls emit. -/
def emittedAll : List Instr → State → List Nat
  | [], _ => []
  | i :: is, s =>
    match exec i s with
    | some s1 => emitted i s ++ emittedAll is s1
    | none => []

/-! ## The fixed program of `main` -/

/-- The union cell after the initialiser `.disp8 = d` (`d` converted to `s8`);
the three bytes the initialiser does not name are taken to be zero. -/
def disp8Cell (d : Int) : Nat := (d % 256).toNat

/-- The globals after the two `VirtualAlloc` calls of `main` (lines 202-208):
`code_base` and `data_base` are the addresses the OS returned and `m0` is the
memory at that time. -/
def main_setup (m0 : Nat → Nat) (code_base data_base : Nat) : State :=
  { mem := m0
    code := code_base
    code_end := code_base + CODE_SIZE
    wptr := code_base
    data := data_base
    data_end := data_base + DATA_SIZE
    data_wptr := data_base }

/-- The array `int a[5]` of `main`. -/
def main_a : List Nat := [5, 2, 3, 1, 4]

/-- Lines 213-222 of `main`: the calls before `JmpRel8(0)`. -/
def main_prologue : List Instr :=
  [Instr.Push RBP, Instr.MovRegRM { mod := DIRECT, reg := RBP, rm := RSP }]
  ++ (List.range 5).map (fun (i : Nat) =>
        Instr.MovRMImm { mod := INDIRECT_8, rm := RBP, disp := disp8Cell (-0x40 + (i : Int) * 8) }
          (main_a.getD i 0))
  ++ [Instr.MovRMImm { mod := INDIRECT_8, rm := RBP, disp := disp8Cell (-0x8) } 0,
      Instr.MovRMImm { mod := INDIRECT_8, rm := RBP, disp := disp8Cell (-0x10) } 0]

/-- Lines 228-231 of `main`: the four calls between `target` and the patch. -/
def main_loop_body : List Instr :=
  [Instr.MovRegRM { mod := INDIRECT_8, reg := RAX, rm := RBP, disp := disp8Cell (-0x10) },
   Instr.MovRegRM { mod := INDIRECT_8, reg := RAX, rm := RSP, disp := disp8Cell (-0x40),
                    scale := SCALE_8, index := RAX, base := RBP },
   Instr.AddRMReg { mod := INDIRECT_8, reg := RAX, rm := RBP, disp := disp8Cell (-0x8) },
   Instr.AddRMImm { mod := INDIRECT_8, rm := RBP, disp := disp8Cell (-0x10) } 0x1]

/-- Lines 237-243 of `main`: the calls after `JmpCond`. -/
def main_epilogue (int_format_string printf_addr : Nat) : List Instr :=
  [Instr.MovRegRM { mod := INDIRECT_8, reg := RDX, rm := RBP, disp := disp8Cell (-0x8) },
   Instr.MovRegImm RCX int_format_string,
   Instr.MovRegImm RAX printf_addr,
   Instr.Call { mod := DIRECT, rm := RAX },
   Instr.Pop RBP,
   Instr.Ret]

/-- The statement `*to_patch = wptr - (to_patch + 1);` (line 233): the pointer
difference is converted to `u8` and stored at the patch site. -/
def patchRel8 (to_patch : Nat) (s : State) : State :=
  { s with mem := store8 s.mem to_patch (toU64 ((s.wptr : Int) - ((to_patch : Int) + 1))) }

/-- Lines 210-234 of `main`, from a state `s0` set up as in `main_setup`: all of
the emission up to the call `JmpCond(JLE, target)`.  Returns
`int_format_string`, `target` and the state in which `JmpCond` is called. -/
def main_head (s0 : State) : Option (Nat × Nat × State) :=
  let (int_format_string, s) := WriteStringToData [0x25, 0x64, 0x0a] s0
  (run main_prologue s).bind fun s =>
  (JmpRel8 0 s).bind fun s =>
  let to_patch := s.wptr - 1
  let target := s.wptr
  (run main_loop_body s).bind fun s =>
  let s := patchRel8 to_patch s
  (CmpRMImm { mod := INDIRECT_8, rm := RBP, disp := disp8Cell (-0x10) } 0x4 s).bind fun s =>
  some (int_format_string, target, s)

/-- The emission part of `main` (lines 210-243), from a state `s0` set up as in
`main_setup`; `printf_addr` is the address of `printf`. -/
def main (s0 : State) (printf_addr : Nat) : Option State :=
  (main_head s0).bind fun (int_format_string, target, s) =>
  (JmpCond JLE target s).bind fun s =>
  run (main_epilogue int_format_string printf_addr) s

/-- A concrete start of `main`: zeroed memory, the code region at `0x10000` and
the data region at `0x20000`. -/
def main_s0 : State := main_setup (fun _ => 0) 0x10000 0x20000

/-! ## Auxiliary notions used in the statements -/

/-- Bytes `i, i+1, ..., i+n-1` of the little-endian representation of `v`. -/
def leBytesFrom (v : Nat) (i : Nat) : Nat → List Nat
  | 0 => []
  | n + 1 => byteAt v i :: leBytesFrom v (i + 1) n

/-- The low `n` bytes of `v` in little-endian order. -/
def leBytes (v : Nat) (n : Nat) : List Nat := leBytesFrom v 0 n

/-- The value of a little-endian byte sequence. -/
def leValue : List Nat → Nat
  | [] => 0
  | b :: bs => b + 256 * leValue bs

/-- `Emits s bs s1`: state `s1` is `s` with exactly the bytes `bs` appended at
the write cursor: the cursor moved by `bs.length`, the other globals kept, no
byte below the old cursor changed, and `bs` now stored from the old cursor on. -/
structure Emits (s : State) (bs : List Nat) (s1 : State) : Prop where
  wptr_eq : s1.wptr = s.wptr + bs.length
  code_eq : s1.code = s.code
  code_end_eq : s1.code_end = s.code_end
  data_eq : s1.data = s.data
  data_end_eq : s1.data_end = s.data_end
  data_wptr_eq : s1.data_wptr = s.data_wptr
  below : ∀ a, a < s.wptr → s1.mem a = s.mem a
  bytes : readBytes s1.mem s.wptr bs.length = bs

/-- The ModRM byte `EmitModRM` computes for a descriptor. -/
def modrmByte (rm : RegMem) : Nat :=
  ((rm.mod &&& 0b11) <<< 6) ||| ((rm.reg &&& 0b111) <<< 3) ||| (rm.rm &&& 0b111)

/-- The SIB byte `EmitModRM` computes for a descriptor. -/
def sibByte (rm : RegMem) : Nat :=
  ((rm.scale &&& 0b11) <<< 6) ||| ((rm.index &&& 0b111) <<< 3) ||| (rm.base &&& 0b111)

/-- The REX byte `EmitREX` computes for a descriptor. -/
def rexByte (rm : RegMem) : Nat :=
  REXW ||| ((rm.reg >>> 3) <<< 2) ||| (rm.rm >>> 3)

/-- The SIB part of what `EmitModRM` emits: one byte exactly when
`rm.rm == RSP && rm.mod != DIRECT`. -/
def sibBytes (rm : RegMem) : List Nat :=
  if rm.rm = RSP ∧ rm.mod ≠ DIRECT then [sibByte rm] else []

/-- The displacement part of what `EmitModRM` emits. -/
def dispBytes (rm : RegMem) : List Nat :=
  if rm.mod = INDIRECT_8 then leBytes (toU64 rm.disp8) 1
  else if rm.mod = INDIRECT_32 then leBytes (toU64 rm.disp32) 4
  else []

/-! ## Sample inputs -/

/-- The descriptor of line 229 of `main`:
`{.mod=INDIRECT_8, .reg=RAX, .rm=RSP, .disp8=-0x40, .scale=SCALE_8, .index=RAX, .base=RBP}`. -/
def main_sib_operand : RegMem :=
  { mod := INDIRECT_8, reg := RAX, rm := RSP, disp := disp8Cell (-0x40),
    scale := SCALE_8, index := RAX, base := RBP }

/-- The state after `EmitModRM(main_sib_operand)` from the empty code region. -/
def after_EmitModRM_sib : State := (EmitModRM main_sib_operand main_s0).getD main_s0

/-- The state of `main` when emission starts (after line 210, which writes the
format string `"%d\n"` to the data region). -/
def main_start : State := (WriteStringToData [0x25, 0x64, 0x0a] main_s0).2

/-- The state of `main` at line 224, before `JmpRel8(0)`. -/
def main_at_jmp : State := (run main_prologue main_start).getD main_start

/-- The state of `main` at line 227, after `JmpRel8(0)`: its cursor is `target`. -/
def main_at_target : State := (JmpRel8 0 main_at_jmp).getD main_at_jmp

/-- The state of `main` at line 233, after the four calls of the loop body and
before the patch. -/
def main_at_patch : State := (run main_loop_body main_at_target).getD main_at_target

/-- For the thirteen catalog functions that take an operand descriptor: the fixed
opcode of the catalog entry (lines 168-187) and the descriptor as the function
hands it to the operand encoder, that is, after `rm.reg = regv` in the `INST_M`
and `INST_MI` shapes. -/
def Instr.modrmForm : Instr → Option (Nat × RegMem)
  | .MovRMImm rm _ => some (0xc7, { rm with reg := 0 })
  | .MovRMReg rm => some (0x89, rm)
  | .MovRegRM rm => some (0x8b, rm)
  | .AddRMImm rm _ => some (0x81, { rm with reg := 0 })
  | .AddRMReg rm => some (0x01, rm)
  | .AddRegRM rm => some (0x03, rm)
  | .SubRMImm rm _ => some (0x81, { rm with reg := 5 })
  | .SubRMReg rm => some (0x29, rm)
  | .SubRegRM rm => some (0x2b, rm)
  | .CmpRMImm rm _ => some (0x81, { rm with reg := 7 })
  | .CmpRMReg rm => some (0x39, rm)
  | .CmpRegRM rm => some (0x3b, rm)
  | .Call rm => some (0xff, { rm with reg := 2 })
  | _ => none

/-- Whether the call is a call of `Call`. -/
def Instr.isCall : Instr → Bool
  | .Call _ => true
  | _ => false

/-- The state after line 218 of `main` with `i = 0`,
`MovRMImm({.mod=INDIRECT_8, .rm=RBP, .disp8=-0x40}, 5)`, from the empty code region. -/
def after_MovRMImm : State :=
  (exec (Instr.MovRMImm { mod := INDIRECT_8, rm := RBP, disp := disp8Cell (-0x40) } 5)
    main_s0).getD main_s0

/-- The state after `MovRegRM({.mod=DIRECT, .reg=R9, .rm=RBX})` from the empty code
region. -/
def after_MovRegRM_r9 : State :=
  (exec (Instr.MovRegRM { mod := DIRECT, reg := R9, rm := RBX }) main_s0).getD main_s0

/-- The manual decoding of a register/memory instruction with an 8-bit
displacement, following the words of the round-trip property: skip the REX prefix
and the opcode, read the ModRM byte, skip the SIB byte when the ModRM byte names
`rm` field 4, and read the next byte as a signed 8-bit value.  Returns the mode
field of the ModRM byte and the displacement. -/
def decodeDisp8 : List Nat → Option (Nat × Int)
  | _ :: _ :: modrm :: rest =>
    match (if modrm &&& 7 = 4 then rest.drop 1 else rest) with
    | d :: _ => some (modrm >>> 6, toS8 d)
    | [] => none
  | _ => none

/-- The byte positions the store `*((u64 *)a) = v` writes: `a, a+1, ..., a+7`. -/
def store64Footprint (a : Nat) : List Nat := (List.range 8).map (fun i => a + i)

/-- A state of the 4096-byte code region in which the cursor is four bytes
before the end: an emit of four bytes would fill the region exactly. -/
def exact_fill_state : State := { main_s0 with wptr := main_s0.code_end - 4 }

/-- A state of the 4096-byte code region in which 4094 bytes have been emitted
(the cursor is two bytes before the end); every byte of memory holds `0xCC`. -/
def near_end_state : State := { main_s0 with mem := fun _ => 0xCC, wptr := main_s0.code + 4094 }

/-- The state of `main` inside the first `MovRMImm` of line 218 (`i = 0`), after
its `EmitModRMOpcode` and before its `EmitCode(imm, 4)`. -/
def main_in_MovRMImm : State :=
  ((run [Instr.Push RBP, Instr.MovRegRM { mod := DIRECT, reg := RBP, rm := RSP }] main_start).bind
    (EmitModRMOpcode { mod := INDIRECT_8, reg := 0, rm := RBP, disp := disp8Cell (-0x40) } 0xc7)).getD
    main_start

/-- The state after the `EmitCode(5, 4)` of that `MovRMImm`. -/
def main_after_imm : State := (EmitCode 5 4 main_in_MovRMImm).getD main_in_MovRMImm

/-- A state of the 4096-byte data region in which the data cursor is two bytes
before the end (`cursor <= capacity`); every byte of memory holds `0xCC`. -/
def data_near_end_state : State :=
  { main_s0 with mem := fun _ => 0xCC, data_wptr := main_s0.data + 4094 }

/-- The state of `main` at line 235, in which `JmpCond(JLE, target)` is called. -/
def main_at_JmpCond : State :=
  ((main_head main_s0).map (fun x => x.2.2)).getD main_s0

/-- The operand descriptor a call passes, for the thirteen catalog functions
that take one. -/
def Instr.operand : Instr → Option RegMem
  | .MovRMImm rm _ => some rm
  | .MovRMReg rm => some rm
  | .MovRegRM rm => some rm
  | .AddRMImm rm _ => some rm
  | .AddRMReg rm => some rm
  | .AddRegRM rm => some rm
  | .SubRMImm rm _ => some rm
  | .SubRMReg rm => some rm
  | .SubRegRM rm => some rm
  | .CmpRMImm rm _ => some rm
  | .CmpRMReg rm => some rm
  | .CmpRegRM rm => some rm
  | .Call rm => some rm
  | _ => none

/-- The same call with the operand descriptor replaced by `rm1` (calls without
an operand descriptor are left as they are). -/
def Instr.withOperand : Instr → RegMem → Instr
  | .MovRMImm _ imm, rm1 => .MovRMImm rm1 imm
  | .MovRMReg _, rm1 => .MovRMReg rm1
  | .MovRegRM _, rm1 => .MovRegRM rm1
  | .AddRMImm _ imm, rm1 => .AddRMImm rm1 imm
  | .AddRMReg _, rm1 => .AddRMReg rm1
  | .AddRegRM _, rm1 => .AddRegRM rm1
  | .SubRMImm _ imm, rm1 => .SubRMImm rm1 imm
  | .SubRMReg _, rm1 => .SubRMReg rm1
  | .SubRegRM _, rm1 => .SubRegRM rm1
  | .CmpRMImm _ imm, rm1 => .CmpRMImm rm1 imm
  | .CmpRMReg _, rm1 => .CmpRMReg rm1
  | .CmpRegRM _, rm1 => .CmpRegRM rm1
  | .Call _, rm1 => .Call rm1
  | i, _ => i

/-- The operand descriptor of the eight register/memory pair forms (the
`INST_RM` entries of the catalog). -/
def Instr.pairOperand : Instr → Option RegMem
  | .MovRMReg rm => some rm
  | .MovRegRM rm => some rm
  | .AddRMReg rm => some rm
  | .AddRegRM rm => some rm
  | .SubRMReg rm => some rm
  | .SubRegRM rm => some rm
  | .CmpRMReg rm => some rm
  | .CmpRegRM rm => some rm
  | _ => none

/-- For the four opcode-extension-plus-immediate forms (the `INST_MI` entries
of the catalog, lines 168-180): the descriptor and the immediate the call passes,
and the catalog constant `regv`. -/
def Instr.immForm : Instr → Option (RegMem × Nat × Nat)
  | .MovRMImm rm imm => some (rm, imm, 0)
  | .AddRMImm rm imm => some (rm, imm, 0)
  | .SubRMImm rm imm => some (rm, imm, 5)
  | .CmpRMImm rm imm => some (rm, imm, 7)
  | _ => none

/-- The state after `SubRMImm({.mod=INDIRECT_8, .reg=R9, .rm=RBP, .disp8=-0x10}, 0x12345678)`
from the empty code region. -/
def after_SubRMImm : State :=
  (exec (Instr.SubRMImm { mod := INDIRECT_8, reg := R9, rm := RBP, disp := disp8Cell (-0x10) }
    0x12345678) main_s0).getD main_s0

/-- The state after `MovRMReg({.mod=INDIRECT_32, .reg=R10, .rm=R13, .disp32=0x100})`
from the empty code region. -/
def after_MovRMReg_r10 : State :=
  (exec (Instr.MovRMReg { mod := INDIRECT_32, reg := R10, rm := R13, disp := 0x100 })
    main_s0).getD main_s0

/-! ## Bytes and memory -/

theorem byteAt_eq (v i : Nat) : byteAt v i = v / 2 ^ (8 * i) % 256 := by
  unfold byteAt
  rw [Nat.shiftRight_eq_div_pow]
  exact Nat.and_pow_two_sub_one_eq_mod _ 8

theorem byteAt_mod (v i : Nat) (h : i < 8) : byteAt (v % 2 ^ 64) i = byteAt v i := by
  rw [byteAt_eq, byteAt_eq]
  interval_cases i <;> norm_num <;> omega

theorem byteAt_zero (v : Nat) : byteAt v 0 = v % 256 := by
  rw [byteAt_eq]; simp

theorem byteAt_lt (v i : Nat) : byteAt v i < 256 := by
  rw [byteAt_eq]; omega

theorem length_leBytesFrom (v i n : Nat) : (leBytesFrom v i n).length = n := by
  induction n generalizing i with
  | zero => rfl
  | succ n ih => simp [leBytesFrom, ih]

theorem length_leBytes (v n : Nat) : (leBytes v n).length = n :=
  length_leBytesFrom v 0 n

theorem length_readBytes (m : Nat → Nat) (a n : Nat) : (readBytes m a n).length = n := by
  induction n generalizing a with
  | zero => rfl
  | succ n ih => simp [readBytes, ih]

theorem readBytes_append (m : Nat → Nat) (a n k : Nat) :
    readBytes m a (n + k) = readBytes m a n ++ readBytes m (a + n) k := by
  induction n generalizing a with
  | zero => simp [readBytes]
  | succ n ih =>
    have e : n + 1 + k = (n + k) + 1 := by omega
    rw [e]
    simp only [readBytes, List.cons_append, ih]
    rw [show a + 1 + n = a + (n + 1) by omega]

theorem readBytes_congr (m m1 : Nat → Nat) (a n : Nat)
    (h : ∀ x, a ≤ x → x < a + n → m x = m1 x) : readBytes m a n = readBytes m1 a n := by
  induction n generalizing a with
  | zero => rfl
  | succ n ih =>
    simp only [readBytes]
    rw [h a (Nat.le_refl a) (by omega), ih (a + 1) (fun x h1 h2 => h x (by omega) (by omega))]

theorem store64_below (m : Nat → Nat) (w v a : Nat) (h : a < w) : store64 m w v a = m a := by
  unfold store64
  rw [if_neg]; omega

theorem store64_at (m : Nat → Nat) (w v i : Nat) (h : i < 8) :
    store64 m w v (w + i) = byteAt v i := by
  unfold store64
  rw [if_pos (by omega), Nat.add_sub_cancel_left, byteAt_mod v i h]

theorem readBytes_store64 (m : Nat → Nat) (w v i n : Nat) (h : i + n ≤ 8) :
    readBytes (store64 m w v) (w + i) n = leBytesFrom v i n := by
  induction n generalizing i with
  | zero => rfl
  | succ n ih =>
    simp only [readBytes, leBytesFrom]
    rw [store64_at m w v i (by omega), Nat.add_assoc, ih (i + 1) (by omega)]

/-! ## `EmitCode` and the `Emits` relation -/

theorem EmitCode_eq_some_iff (v cnt : Nat) (s s1 : State) :
    EmitCode v cnt s = some s1 ↔
      s.wptr + cnt < s.code_end ∧
      s1 = { s with mem := store64 s.mem s.wptr v, wptr := s.wptr + cnt } := by
  unfold EmitCode Assert
  by_cases h : s.wptr + cnt < s.code_end
  · simp [h, eq_comm]
  · simp [h]

theorem Emits.refl (s : State) : Emits s [] s :=
  ⟨rfl, rfl, rfl, rfl, rfl, rfl, fun _ _ => rfl, rfl⟩

theorem Emits.trans {s s1 s2 : State} {bs cs : List Nat}
    (h1 : Emits s bs s1) (h2 : Emits s1 cs s2) : Emits s (bs ++ cs) s2 where
  wptr_eq := by rw [h2.wptr_eq, h1.wptr_eq, List.length_append, Nat.add_assoc]
  code_eq := h2.code_eq.trans h1.code_eq
  code_end_eq := h2.code_end_eq.trans h1.code_end_eq
  data_eq := h2.data_eq.trans h1.data_eq
  data_end_eq := h2.data_end_eq.trans h1.data_end_eq
  data_wptr_eq := h2.data_wptr_eq.trans h1.data_wptr_eq
  below := fun a ha => by
    rw [h2.below a (by rw [h1.wptr_eq]; omega), h1.below a ha]
  bytes := by
    rw [List.length_append, readBytes_append]
    have e1 : readBytes s2.mem s.wptr bs.length = bs := by
      rw [readBytes_congr s2.mem s1.mem s.wptr bs.length
        (fun x _ hx => h2.below x (by rw [h1.wptr_eq]; exact hx))]
      exact h1.bytes
    rw [e1, ← h1.wptr_eq, h2.bytes]

theorem Emits.emittedFrom_eq {s s1 : State} {bs : List Nat} (h : Emits s bs s1) :
    emittedFrom s.wptr s1 = bs := by
  unfold emittedFrom
  rw [h.wptr_eq, Nat.add_sub_cancel_left]
  exact h.bytes

theorem Emits.wptr_le {s s1 : State} {bs : List Nat} (h : Emits s bs s1) : s.wptr ≤ s1.wptr := by
  rw [h.wptr_eq]; omega

theorem EmitCode_emits {v cnt : Nat} {s s1 : State} (hc : cnt ≤ 8)
    (h : EmitCode v cnt s = some s1) : Emits s (leBytes v cnt) s1 := by
  obtain ⟨_, rfl⟩ := (EmitCode_eq_some_iff v cnt s s1).mp h
  refine ⟨by simp [length_leBytes], rfl, rfl, rfl, rfl, rfl, ?_, ?_⟩
  · intro a ha
    exact store64_below s.mem s.wptr v a ha
  · rw [length_leBytes]
    exact readBytes_store64 s.mem s.wptr v 0 cnt (by omega)

theorem EmitCode_room {v cnt : Nat} {s s1 : State} (h : EmitCode v cnt s = some s1) :
    s.wptr + cnt < s.code_end :=
  ((EmitCode_eq_some_iff v cnt s s1).mp h).1

theorem EmitCode_isSome (v cnt : Nat) (s : State) (h : s.wptr + cnt < s.code_end) :
    ∃ s1, EmitCode v cnt s = some s1 :=
  ⟨_, (EmitCode_eq_some_iff v cnt s _).mpr ⟨h, rfl⟩⟩

/-! ## What each emitter function appends -/

theorem modrmByte_lt (rm : RegMem) : modrmByte rm < 256 := by
  unfold modrmByte
  have h1 : rm.mod &&& 0b11 ≤ 3 := Nat.and_le_right
  have h2 : rm.reg &&& 0b111 ≤ 7 := Nat.and_le_right
  have h3 : rm.rm &&& 0b111 ≤ 7 := Nat.and_le_right
  have e : (256 : Nat) = 2 ^ 8 := by norm_num
  rw [e]
  refine Nat.or_lt_two_pow (Nat.or_lt_two_pow ?_ ?_) ?_
  · rw [Nat.shiftLeft_eq]; omega
  · rw [Nat.shiftLeft_eq]; omega
  · omega

theorem sibByte_lt (rm : RegMem) : sibByte rm < 256 :=
  modrmByte_lt { mod := rm.scale, reg := rm.index, rm := rm.base }

theorem leBytes_one (v : Nat) : leBytes v 1 = [v % 256] := by
  simp [leBytes, leBytesFrom, byteAt_zero]

theorem EmitOpcode_emits {op : Nat} {s s1 : State} (h : EmitOpcode op s = some s1) :
    Emits s [op % 256] s1 := by
  rw [← leBytes_one]
  exact EmitCode_emits (by omega) h

theorem EmitREX_emits {rm : RegMem} {s s1 : State} (h : EmitREX rm s = some s1) :
    Emits s [rexByte rm % 256] s1 := by
  rw [← leBytes_one]
  exact EmitCode_emits (by omega) h

theorem EmitREXW_emits {s s1 : State} (h : EmitREXW s = some s1) : Emits s [0x48] s1 := by
  have := EmitCode_emits (by omega) h
  rwa [leBytes_one] at this

theorem EmitModRM_emits {rm : RegMem} {s s1 : State} (h : EmitModRM rm s = some s1) :
    Emits s (modrmByte rm :: (sibBytes rm ++ dispBytes rm)) s1 := by
  unfold EmitModRM at h
  obtain ⟨sa, ha, h⟩ := Option.bind_eq_some.mp h
  obtain ⟨sb, hb, h⟩ := Option.bind_eq_some.mp h
  have ea : Emits s [modrmByte rm] sa := by
    have := EmitCode_emits (by omega) ha
    rwa [leBytes_one, ← modrmByte, Nat.mod_eq_of_lt (modrmByte_lt rm)] at this
  have eb : Emits sa (sibBytes rm) sb := by
    unfold sibBytes
    by_cases hc : rm.rm = RSP ∧ rm.mod ≠ DIRECT
    · rw [if_pos hc] at hb ⊢
      have := EmitCode_emits (by omega) hb
      rwa [leBytes_one, ← sibByte, Nat.mod_eq_of_lt (sibByte_lt rm)] at this
    · rw [if_neg hc] at hb ⊢
      cases hb; exact Emits.refl _
  have ec : Emits sb (dispBytes rm) s1 := by
    unfold dispBytes
    by_cases h8 : rm.mod = INDIRECT_8
    · rw [if_pos h8] at h ⊢
      exact EmitCode_emits (by omega) h
    · rw [if_neg h8] at h ⊢
      by_cases h32 : rm.mod = INDIRECT_32
      · rw [if_pos h32] at h ⊢
        exact EmitCode_emits (by omega) h
      · rw [if_neg h32] at h ⊢
        cases h; exact Emits.refl _
  exact ea.trans (eb.trans ec)

theorem EmitModRMOpcode_emits {rm : RegMem} {op : Nat} {s s1 : State}
    (h : EmitModRMOpcode rm op s = some s1) :
    Emits s (rexByte rm % 256 :: op % 256 :: modrmByte rm :: (sibBytes rm ++ dispBytes rm)) s1 := by
  unfold EmitModRMOpcode at h
  obtain ⟨sa, ha, h⟩ := Option.bind_eq_some.mp h
  obtain ⟨sb, hb, h⟩ := Option.bind_eq_some.mp h
  exact (EmitREX_emits ha).trans ((EmitOpcode_emits hb).trans (EmitModRM_emits h))

theorem INST_ZO_emits {op : Nat} {s s1 : State} (h : INST_ZO op s = some s1) :
    Emits s [op % 256] s1 :=
  EmitOpcode_emits h

theorem INST_O_emits {op reg : Nat} {s s1 : State} (h : INST_O op reg s = some s1) :
    Emits s [(op + reg) % 256] s1 :=
  EmitOpcode_emits h

theorem INST_D_emits {op len : Nat} {off : Int} {s s1 : State} (hl : len ≤ 8)
    (h : INST_D op len off s = some s1) :
    Emits s (op % 256 :: leBytes (toU64 off) len) s1 := by
  unfold INST_D at h
  obtain ⟨sa, ha, h⟩ := Option.bind_eq_some.mp h
  exact (EmitOpcode_emits ha).trans (EmitCode_emits hl h)

theorem INST_OI_emits {op reg imm : Nat} {s s1 : State} (h : INST_OI op reg imm s = some s1) :
    Emits s (0x48 :: (op + reg) % 256 :: leBytes imm 8) s1 := by
  unfold INST_OI at h
  obtain ⟨sa, ha, h⟩ := Option.bind_eq_some.mp h
  obtain ⟨sb, hb, h⟩ := Option.bind_eq_some.mp h
  exact (EmitREXW_emits ha).trans ((EmitOpcode_emits hb).trans (EmitCode_emits (by omega) h))

theorem INST_RM_emits {op : Nat} {rm : RegMem} {s s1 : State} (h : INST_RM op rm s = some s1) :
    Emits s (rexByte rm % 256 :: op % 256 :: modrmByte rm :: (sibBytes rm ++ dispBytes rm)) s1 :=
  EmitModRMOpcode_emits h

theorem INST_M_emits {op regv : Nat} {rm : RegMem} {s s1 : State}
    (h : INST_M op regv rm s = some s1) :
    Emits s (op % 256 :: modrmByte { rm with reg := regv } ::
      (sibBytes rm ++ dispBytes rm)) s1 := by
  unfold INST_M at h
  obtain ⟨sa, ha, h⟩ := Option.bind_eq_some.mp h
  exact (EmitOpcode_emits ha).trans (EmitModRM_emits h)

theorem INST_MI_emits {op regv imm : Nat} {rm : RegMem} {s s1 : State}
    (h : INST_MI op regv rm imm s = some s1) :
    Emits s (rexByte { rm with reg := regv } % 256 :: op % 256 ::
      modrmByte { rm with reg := regv } :: (sibBytes rm ++ dispBytes rm) ++ leBytes imm 4) s1 := by
  unfold INST_MI at h
  obtain ⟨sa, ha, h⟩ := Option.bind_eq_some.mp h
  exact (EmitModRMOpcode_emits ha).trans (EmitCode_emits (by omega) h)

theorem JmpCond_emits {cond target : Nat} {s s1 : State} (h : JmpCond cond target s = some s1) :
    Emits s
      (if toU32 (truncS32 ((target : Int) - ((s.wptr : Int) + 6))) < 255 then
        (0x70 + cond) % 256 :: leBytes (toU64 ((target : Int) - ((s.wptr : Int) + 2))) 1
      else
        0x0f :: (0x80 + cond) % 256 :: leBytes (toU64 ((target : Int) - ((s.wptr : Int) + 6))) 4)
      s1 := by
  unfold JmpCond at h
  simp only at h
  split at h
  · rename_i hc
    rw [if_pos hc]
    obtain ⟨sa, ha, h⟩ := Option.bind_eq_some.mp h
    have ea := EmitOpcode_emits ha
    have eb := EmitCode_emits (by omega) h
    have ew : (sa.wptr : Int) + 1 = (s.wptr : Int) + 2 := by
      rw [ea.wptr_eq]; simp; omega
    rw [ew] at eb
    exact ea.trans eb
  · rename_i hc
    rw [if_neg hc]
    obtain ⟨sa, ha, h⟩ := Option.bind_eq_some.mp h
    obtain ⟨sb, hb, h⟩ := Option.bind_eq_some.mp h
    have ea := EmitOpcode_emits ha
    have eb := EmitOpcode_emits hb
    have ec := EmitCode_emits (by omega) h
    have ew : (sb.wptr : Int) + 4 = (s.wptr : Int) + 6 := by
      rw [eb.wptr_eq, ea.wptr_eq]; simp; omega
    rw [ew] at ec
    exact ea.trans (eb.trans ec)

theorem EmitModRM_isSome (rm : RegMem) (s : State)
    (h : s.wptr + (1 + (sibBytes rm).length + (dispBytes rm).length) < s.code_end) :
    ∃ s1, EmitModRM rm s = some s1 := by
  unfold EmitModRM
  obtain ⟨sa, ha⟩ := EmitCode_isSome (modrmByte rm) 1 s (by omega)
  have ea := EmitCode_emits (by omega) ha
  have wa := ea.wptr_eq
  have ca := ea.code_end_eq
  rw [length_leBytes] at wa
  unfold modrmByte at ha
  rw [ha, Option.some_bind]
  unfold sibBytes at h
  have step : ∀ sb : State, sb.code_end = s.code_end →
      sb.wptr + (dispBytes rm).length < s.code_end →
      ∃ s1, (if rm.mod = INDIRECT_8 then EmitCode (toU64 rm.disp8) 1 sb
        else if rm.mod = INDIRECT_32 then EmitCode (toU64 rm.disp32) 4 sb else some sb)
        = some s1 := by
    intro sb hcb hwb
    unfold dispBytes at hwb
    by_cases h8 : rm.mod = INDIRECT_8
    · rw [if_pos h8] at hwb ⊢
      rw [length_leBytes] at hwb
      exact EmitCode_isSome _ _ _ (by omega)
    · rw [if_neg h8] at hwb ⊢
      by_cases h32 : rm.mod = INDIRECT_32
      · rw [if_pos h32] at hwb ⊢
        rw [length_leBytes] at hwb
        exact EmitCode_isSome _ _ _ (by omega)
      · rw [if_neg h32]
        exact ⟨sb, rfl⟩
  by_cases hc : rm.rm = RSP ∧ rm.mod ≠ DIRECT
  · rw [if_pos hc] at h ⊢
    obtain ⟨sb, hb⟩ := EmitCode_isSome (sibByte rm) 1 sa
      (by simp only [List.length_singleton] at h; omega)
    have eb := EmitCode_emits (by omega) hb
    have wb := eb.wptr_eq
    have cb := eb.code_end_eq
    rw [length_leBytes] at wb
    unfold sibByte at hb
    rw [hb, Option.some_bind]
    exact step sb (by omega) (by simp only [List.length_singleton] at h; omega)
  · rw [if_neg hc] at h ⊢
    rw [Option.some_bind]
    exact step sa (by omega) (by simp only [List.length_nil] at h; omega)

theorem EmitModRMOpcode_isSome (rm : RegMem) (op : Nat) (s : State)
    (h : s.wptr + (3 + (sibBytes rm).length + (dispBytes rm).length) < s.code_end) :
    ∃ s1, EmitModRMOpcode rm op s = some s1 := by
  unfold EmitModRMOpcode
  obtain ⟨sa, ha⟩ := EmitCode_isSome (rexByte rm) 1 s (by omega)
  have ea := EmitREX_emits ha
  obtain ⟨sb, hb⟩ := EmitCode_isSome op 1 sa
    (by have := ea.wptr_eq; have := ea.code_end_eq; simp only [List.length_singleton] at *; omega)
  have eb := EmitOpcode_emits hb
  have hw : sb.wptr = s.wptr + 2 := by
    have := ea.wptr_eq; have := eb.wptr_eq; simp only [List.length_singleton] at *; omega
  have hce : sb.code_end = s.code_end := eb.code_end_eq.trans ea.code_end_eq
  obtain ⟨sc, hc⟩ := EmitModRM_isSome rm sb (by omega)
  refine ⟨sc, ?_⟩
  have ha1 : EmitREX rm s = some sa := ha
  have hb1 : EmitOpcode op sa = some sb := hb
  rw [ha1, Option.some_bind, hb1, Option.some_bind, hc]

/-! ## Calls and sequences of calls -/

theorem emitted_eq {i : Instr} {s s1 : State} (h : exec i s = some s1) :
    emitted i s = emittedFrom s.wptr s1 := by
  simp [emitted, h]

theorem Emits.of_emittedFrom {s s1 : State} {bs : List Nat} (h : Emits s bs s1) :
    Emits s (emittedFrom s.wptr s1) s1 := by
  rw [h.emittedFrom_eq]; exact h

theorem exec_emits {i : Instr} {s s1 : State} (h : exec i s = some s1) :
    Emits s (emitted i s) s1 := by
  rw [emitted_eq h]
  cases i with
  | Push reg => exact (INST_O_emits h).of_emittedFrom
  | Pop reg => exact (INST_O_emits h).of_emittedFrom
  | Ret => exact (INST_ZO_emits h).of_emittedFrom
  | MovRegImm reg imm => exact (INST_OI_emits h).of_emittedFrom
  | MovRMImm rm imm => exact (INST_MI_emits h).of_emittedFrom
  | MovRMReg rm => exact (INST_RM_emits h).of_emittedFrom
  | MovRegRM rm => exact (INST_RM_emits h).of_emittedFrom
  | AddRMImm rm imm => exact (INST_MI_emits h).of_emittedFrom
  | AddRMReg rm => exact (INST_RM_emits h).of_emittedFrom
  | AddRegRM rm => exact (INST_RM_emits h).of_emittedFrom
  | SubRMImm rm imm => exact (INST_MI_emits h).of_emittedFrom
  | SubRMReg rm => exact (INST_RM_emits h).of_emittedFrom
  | SubRegRM rm => exact (INST_RM_emits h).of_emittedFrom
  | CmpRMImm rm imm => exact (INST_MI_emits h).of_emittedFrom
  | CmpRMReg rm => exact (INST_RM_emits h).of_emittedFrom
  | CmpRegRM rm => exact (INST_RM_emits h).of_emittedFrom
  | JmpRel8 offset => exact (INST_D_emits (by omega) h).of_emittedFrom
  | JmpRel32 offset => exact (INST_D_emits (by omega) h).of_emittedFrom
  | Call rm => exact (INST_M_emits h).of_emittedFrom
  | JmpCond cond target => exact (JmpCond_emits h).of_emittedFrom

theorem run_emits {prog : List Instr} {s s1 : State} (h : run prog s = some s1) :
    Emits s (emittedAll prog s) s1 := by
  induction prog generalizing s with
  | nil =>
    cases h
    exact Emits.refl _
  | cons i is ih =>
    obtain ⟨sm, hm, hrest⟩ := Option.bind_eq_some.mp h
    simp only [emittedAll, hm]
    exact (exec_emits hm).trans (ih hrest)

theorem some_getD_of_isSome {α : Type} {o : Option α} {d : α} (h : o.isSome = true) :
    o = some (o.getD d) := by
  cases o with
  | none => cases h
  | some a => rfl

/-! ## Byte Emitter -/

/-- C3: `EmitCode(value, cnt)` for `cnt` in {1, 4, 8}: whenever the bounds assertion
`wptr + cnt < code_end` passes, the call returns, the `cnt` bytes starting at the old
cursor are the low `cnt` bytes of `value` in little-endian order (byte `i` equals
`(value >> 8*i) & 0xFF`), and the cursor is the old cursor plus `cnt`. -/
theorem EmitCode_contract (value cnt : Nat) (s : State)
    (hcnt : cnt = 1 ∨ cnt = 4 ∨ cnt = 8) (hassert : s.wptr + cnt < s.code_end) :
    ∃ s1, EmitCode value cnt s = some s1 ∧
      (∀ i, i < cnt → s1.mem (s.wptr + i) = (value >>> (8 * i)) &&& 0xFF) ∧
      s1.wptr = s.wptr + cnt := by
  refine ⟨_, (EmitCode_eq_some_iff value cnt s _).mpr ⟨hassert, rfl⟩, ?_, rfl⟩
  intro i hi
  have h8 : i < 8 := by omega
  exact store64_at s.mem s.wptr value i h8

/-- Witness for C3: a 4-byte emit into the empty code region of `main`. -/
theorem EmitCode_contract_witness :
    (4 = 1 ∨ 4 = 4 ∨ 4 = 8) ∧ main_s0.wptr + 4 < main_s0.code_end ∧
    ∃ s1, EmitCode 0x1122334455667788 4 main_s0 = some s1 ∧
      (∀ i, i < 4 → s1.mem (main_s0.wptr + i) = (0x1122334455667788 >>> (8 * i)) &&& 0xFF) ∧
      s1.wptr = main_s0.wptr + 4 :=
  ⟨by decide, by decide,
    EmitCode_contract 0x1122334455667788 4 main_s0 (by decide) (by decide)⟩

/-! ## Operand Encoder -/

theorem rexByte_eq (rm : RegMem) (hreg : rm.reg ≤ 15) (hrm : rm.rm ≤ 15) :
    rexByte rm % 256 =
      0x48 ||| (((rm.reg >>> 3) &&& 1) <<< 2) ||| ((rm.rm >>> 3) &&& 1) := by
  have key : ∀ a, a < 16 → ∀ b, b < 16 →
      (0x48 ||| ((a >>> 3) <<< 2) ||| (b >>> 3)) % 256 =
        0x48 ||| (((a >>> 3) &&& 1) <<< 2) ||| ((b >>> 3) &&& 1) := by
    decide
  exact key rm.reg (by omega) rm.rm (by omega)

theorem sibBytes_direct (rm : RegMem) (h : rm.mod = DIRECT) : sibBytes rm = [] := by
  simp [sibBytes, h]

theorem dispBytes_direct (rm : RegMem) (h : rm.mod = DIRECT) : dispBytes rm = [] := by
  simp [dispBytes, h, DIRECT, INDIRECT_8, INDIRECT_32]

theorem INST_RM_direct (op : Nat) (rm : RegMem) (s : State) (hop : op < 256)
    (hreg : rm.reg ≤ 15) (hrm : rm.rm ≤ 15) (hmod : rm.mod = DIRECT)
    (hroom : s.wptr + 3 < s.code_end) :
    ∃ s1, INST_RM op rm s = some s1 ∧ s1.wptr = s.wptr + 3 ∧
      emittedFrom s.wptr s1 =
        [0x48 ||| (((rm.reg >>> 3) &&& 1) <<< 2) ||| ((rm.rm >>> 3) &&& 1), op,
         0xC0 ||| ((rm.reg &&& 7) <<< 3) ||| (rm.rm &&& 7)] := by
  obtain ⟨s1, h⟩ := EmitModRMOpcode_isSome rm op s
    (by rw [sibBytes_direct rm hmod, dispBytes_direct rm hmod]; exact hroom)
  have e := @INST_RM_emits op rm s s1 h
  rw [sibBytes_direct rm hmod, dispBytes_direct rm hmod, rexByte_eq rm hreg hrm,
    Nat.mod_eq_of_lt hop] at e
  have hm : modrmByte rm = 0xC0 ||| ((rm.reg &&& 7) <<< 3) ||| (rm.rm &&& 7) := by
    unfold modrmByte; rw [hmod]; rfl
  rw [hm] at e
  exact ⟨s1, h, e.wptr_eq, e.emittedFrom_eq⟩

/-- C6: for every register pair `(r1, r2)` with `r1, r2` in [0,15], `MovRMReg` and
`MovRegRM` called with `{mod=DIRECT, reg=r1, rm=r2}` (and enough room for three
bytes) emit exactly three bytes: the REX prefix
`0x48 | (((r1>>3)&1) << 2) | ((r2>>3)&1)`, the opcode, and the ModRM byte; the same
holds with the two registers swapped between the fields. -/
theorem mov_direct_rex (r1 r2 : Nat) (rm : RegMem) (s : State)
    (h1 : r1 ≤ 15) (h2 : r2 ≤ 15) (hmod : rm.mod = DIRECT)
    (hroom : s.wptr + 3 < s.code_end) :
    (∃ s1, MovRMReg { rm with reg := r1, rm := r2 } s = some s1 ∧ s1.wptr = s.wptr + 3 ∧
      emittedFrom s.wptr s1 =
        [0x48 ||| (((r1 >>> 3) &&& 1) <<< 2) ||| ((r2 >>> 3) &&& 1), 0x89,
         0xC0 ||| ((r1 &&& 7) <<< 3) ||| (r2 &&& 7)]) ∧
    (∃ s1, MovRegRM { rm with reg := r1, rm := r2 } s = some s1 ∧ s1.wptr = s.wptr + 3 ∧
      emittedFrom s.wptr s1 =
        [0x48 ||| (((r1 >>> 3) &&& 1) <<< 2) ||| ((r2 >>> 3) &&& 1), 0x8b,
         0xC0 ||| ((r1 &&& 7) <<< 3) ||| (r2 &&& 7)]) ∧
    (∃ s1, MovRMReg { rm with reg := r2, rm := r1 } s = some s1 ∧ s1.wptr = s.wptr + 3 ∧
      emittedFrom s.wptr s1 =
        [0x48 ||| (((r2 >>> 3) &&& 1) <<< 2) ||| ((r1 >>> 3) &&& 1), 0x89,
         0xC0 ||| ((r2 &&& 7) <<< 3) ||| (r1 &&& 7)]) ∧
    (∃ s1, MovRegRM { rm with reg := r2, rm := r1 } s = some s1 ∧ s1.wptr = s.wptr + 3 ∧
      emittedFrom s.wptr s1 =
        [0x48 ||| (((r2 >>> 3) &&& 1) <<< 2) ||| ((r1 >>> 3) &&& 1), 0x8b,
         0xC0 ||| ((r2 &&& 7) <<< 3) ||| (r1 &&& 7)]) :=
  ⟨INST_RM_direct 0x89 { rm with reg := r1, rm := r2 } s (by omega) h1 h2 hmod hroom,
   INST_RM_direct 0x8b { rm with reg := r1, rm := r2 } s (by omega) h1 h2 hmod hroom,
   INST_RM_direct 0x89 { rm with reg := r2, rm := r1 } s (by omega) h2 h1 hmod hroom,
   INST_RM_direct 0x8b { rm with reg := r2, rm := r1 } s (by omega) h2 h1 hmod hroom⟩

/-- Witness for C6: `r1 = R9`, `r2 = RBX` into the empty code region of `main`;
the REX prefix is `0x4C` one way round and `0x49` the other. -/
theorem mov_direct_rex_witness :
    (R9 ≤ 15 ∧ RBX ≤ 15 ∧ ({ mod := DIRECT } : RegMem).mod = DIRECT ∧
      main_s0.wptr + 3 < main_s0.code_end) ∧
    (∃ s1, MovRMReg { mod := DIRECT, reg := R9, rm := RBX } main_s0 = some s1 ∧
      s1.wptr = main_s0.wptr + 3 ∧ emittedFrom main_s0.wptr s1 = [0x4C, 0x89, 0xCB]) ∧
    (∃ s1, MovRMReg { mod := DIRECT, reg := RBX, rm := R9 } main_s0 = some s1 ∧
      s1.wptr = main_s0.wptr + 3 ∧ emittedFrom main_s0.wptr s1 = [0x49, 0x89, 0xD9]) :=
  ⟨⟨by decide, by decide, rfl, by decide⟩,
    (mov_direct_rex R9 RBX { mod := DIRECT } main_s0 (by decide) (by decide) rfl (by decide)).1,
    (mov_direct_rex R9 RBX { mod := DIRECT } main_s0 (by decide) (by decide) rfl
      (by decide)).2.2.1⟩

/-- C7: for every descriptor with a mode in [0,3] (and any `reg`, `rm`, in particular
those in [0,15]), what `EmitModRM` emits is the ModRM byte, then a SIB byte
`((scale & 3) << 6) | ((index & 7) << 3) | (base & 7)` if and only if `rm == 4` (the
stack pointer) and the mode is one of the three indirect modes, then the displacement
bytes; for every other `rm`, and for direct mode, nothing stands between the ModRM
byte and the displacement. -/
theorem EmitModRM_sib (rm : RegMem) (s s1 : State) (hmod : rm.mod ≤ 3)
    (h : EmitModRM rm s = some s1) :
    emittedFrom s.wptr s1 =
      (((rm.mod &&& 3) <<< 6) ||| ((rm.reg &&& 7) <<< 3) ||| (rm.rm &&& 7)) ::
        ((if rm.rm = 4 ∧ (rm.mod = INDIRECT ∨ rm.mod = INDIRECT_8 ∨ rm.mod = INDIRECT_32) then
            [((rm.scale &&& 3) <<< 6) ||| ((rm.index &&& 7) <<< 3) ||| (rm.base &&& 7)]
          else []) ++ dispBytes rm) := by
  rw [(EmitModRM_emits h).emittedFrom_eq]
  have hc : (rm.rm = RSP ∧ rm.mod ≠ DIRECT) ↔
      (rm.rm = 4 ∧ (rm.mod = INDIRECT ∨ rm.mod = INDIRECT_8 ∨ rm.mod = INDIRECT_32)) := by
    unfold RSP DIRECT INDIRECT INDIRECT_8 INDIRECT_32
    omega
  unfold sibBytes
  simp only [hc]
  rfl

/-- Witness for C7: the scaled-index operand of line 229 of `main`
(`rm = RSP`, `INDIRECT_8`): ModRM `0x44`, SIB `0xC5`, disp8 `0xC0`. -/
theorem EmitModRM_sib_witness :
    (main_sib_operand.mod ≤ 3 ∧
      EmitModRM main_sib_operand main_s0 = some after_EmitModRM_sib) ∧
    emittedFrom main_s0.wptr after_EmitModRM_sib = [0x44, 0xC5, 0xC0] :=
  ⟨⟨by decide, some_getD_of_isSome (by decide)⟩,
    (EmitModRM_sib main_sib_operand main_s0 after_EmitModRM_sib (by decide)
      (some_getD_of_isSome (by decide))).trans (by decide)⟩

/-! ## Emission order and the forward patch -/

theorem run_append (p q : List Instr) (s : State) :
    run (p ++ q) s = (run p s).bind (run q) := by
  induction p generalizing s with
  | nil => rfl
  | cons i is ih =>
    simp only [List.cons_append, run]
    cases exec i s with
    | none => rfl
    | some sm => exact ih sm

theorem Emits.head_eq {s s1 : State} {b : Nat} {bs : List Nat} (h : Emits s (b :: bs) s1) :
    s1.mem s.wptr = b := by
  have hb := h.bytes
  simp only [List.length_cons, readBytes, List.cons.injEq] at hb
  exact hb.1

/-- C10: for every sequence of encoder calls that all succeed (here split at an
arbitrary point into `pre` and `post`), the code region between the starting cursor
and the final cursor holds the concatenation, in call order, of the byte sequences
the calls emit; it is what `pre` had emitted followed by what `post` emits; and the
later calls change no byte located before the cursor at which they started. -/
theorem emission_order (pre post : List Instr) (s sm s1 : State)
    (hpre : run pre s = some sm) (hpost : run post sm = some s1) :
    emittedFrom s.wptr s1 = emittedAll (pre ++ post) s ∧
    emittedFrom s.wptr s1 = emittedFrom s.wptr sm ++ emittedFrom sm.wptr s1 ∧
    (∀ a, a < sm.wptr → s1.mem a = sm.mem a) ∧
    s.wptr ≤ sm.wptr ∧ sm.wptr ≤ s1.wptr := by
  have hall : run (pre ++ post) s = some s1 := by
    rw [run_append, hpre, Option.some_bind, hpost]
  have e1 := run_emits hpre
  have e2 := run_emits hpost
  refine ⟨(run_emits hall).emittedFrom_eq, ?_, e2.below, e1.wptr_le, e2.wptr_le⟩
  rw [(e1.trans e2).emittedFrom_eq, e1.emittedFrom_eq, e2.emittedFrom_eq]

/-- Witness for C10: the prologue of `main` followed by `JmpRel8(0)`. -/
theorem emission_order_witness :
    (run main_prologue main_start = some main_at_jmp ∧
      run [Instr.JmpRel8 0] main_at_jmp = some main_at_target) ∧
    emittedFrom main_start.wptr main_at_target =
      emittedAll (main_prologue ++ [Instr.JmpRel8 0]) main_start ∧
    emittedFrom main_start.wptr main_at_target =
      emittedFrom main_start.wptr main_at_jmp ++ [0xEB, 0x00] :=
  have h1 : run main_prologue main_start = some main_at_jmp :=
    some_getD_of_isSome (by decide)
  have h2 : run [Instr.JmpRel8 0] main_at_jmp = some main_at_target :=
    (some_getD_of_isSome (d := main_at_jmp)
      (by decide : (run [Instr.JmpRel8 0] main_at_jmp).isSome = true)).trans rfl
  have h := emission_order main_prologue [Instr.JmpRel8 0] main_start main_at_jmp
    main_at_target h1 h2
  have h3 : emittedFrom main_at_jmp.wptr main_at_target = [0xEB, 0x00] := by decide
  ⟨⟨h1, h2⟩, h.1, h.2.1.trans (congrArg (emittedFrom main_start.wptr main_at_jmp ++ ·) h3)⟩

theorem toS8_of_le (n : Nat) (h : n ≤ 127) : toS8 n = (n : Int) := by
  unfold toS8
  have e : n % 256 = n := Nat.mod_eq_of_lt (by omega)
  rw [e, if_pos (by omega)]

theorem toU64_natCast_sub (a b : Nat) (hb : b ≤ a) (ha : a - b < 2 ^ 64) :
    toU64 ((a : Int) - (b : Int)) = a - b := by
  unfold toU64
  norm_num at ha ⊢
  omega

/-- C9: after `JmpRel8(0)` is emitted and the patch site recorded as `wptr - 1`, any
sequence of catalog calls of total length at most 127 is emitted, and line 233
stores `wptr - (site + 1)` at the site, the byte at the site read as a signed 8-bit
offset plus `site + 1` equals the cursor where emission resumed, the opcode byte
`0xEB` just before the site is still in place, and the patch leaves the cursor
alone. -/
theorem forward_patch (prog : List Instr) (s0 s1 s2 : State)
    (hj : JmpRel8 0 s0 = some s1) (hrun : run prog s1 = some s2)
    (hL : s2.wptr - s1.wptr ≤ 127) :
    toS8 ((patchRel8 (s1.wptr - 1) s2).mem (s1.wptr - 1)) + (((s1.wptr - 1 : Nat) : Int) + 1)
      = (s2.wptr : Int) ∧
    (patchRel8 (s1.wptr - 1) s2).mem (s1.wptr - 1 - 1) = 0xEB ∧
    (patchRel8 (s1.wptr - 1) s2).wptr = s2.wptr := by
  have ej := INST_D_emits (by omega) hj
  have er := run_emits hrun
  have hw1 : s1.wptr = s0.wptr + 2 := by
    have := ej.wptr_eq
    simpa [length_leBytes] using this
  have hle : s1.wptr ≤ s2.wptr := er.wptr_le
  have hop : s1.mem s0.wptr = 0xEB := ej.head_eq
  have hsite : ((s1.wptr - 1 : Nat) : Int) + 1 = (s1.wptr : Int) := by omega
  have hv : toU64 ((s2.wptr : Int) - (((s1.wptr - 1 : Nat) : Int) + 1)) = s2.wptr - s1.wptr := by
    rw [hsite]
    exact toU64_natCast_sub s2.wptr s1.wptr hle (by norm_num; omega)
  refine ⟨?_, ?_, rfl⟩
  · simp only [patchRel8, store8, if_true, hv]
    rw [Nat.mod_eq_of_lt (by omega), toS8_of_le _ hL, hsite]
    omega
  · simp only [patchRel8, store8]
    rw [if_neg (by omega), er.below _ (by omega)]
    have e : s1.wptr - 1 - 1 = s0.wptr := by omega
    rw [e, hop]

/-- Witness for C9: the fixed program of `main`; the four calls of the loop body
are 21 bytes long, so the patched byte is 21. -/
theorem forward_patch_witness :
    (JmpRel8 0 main_at_jmp = some main_at_target ∧
      run main_loop_body main_at_target = some main_at_patch ∧
      main_at_patch.wptr - main_at_target.wptr ≤ 127) ∧
    (patchRel8 (main_at_target.wptr - 1) main_at_patch).mem (main_at_target.wptr - 1) = 21 ∧
    toS8 21 + (((main_at_target.wptr - 1 : Nat) : Int) + 1) = (main_at_patch.wptr : Int) ∧
    (patchRel8 (main_at_target.wptr - 1) main_at_patch).mem (main_at_target.wptr - 1 - 1)
      = 0xEB :=
  have h1 : JmpRel8 0 main_at_jmp = some main_at_target := some_getD_of_isSome (by decide)
  have h2 : run main_loop_body main_at_target = some main_at_patch :=
    some_getD_of_isSome (by decide)
  have h3 : main_at_patch.wptr - main_at_target.wptr ≤ 127 := by decide
  have h4 : (patchRel8 (main_at_target.wptr - 1) main_at_patch).mem (main_at_target.wptr - 1)
      = 21 := by decide
  have h := forward_patch main_loop_body main_at_jmp main_at_target main_at_patch h1 h2 h3
  ⟨⟨h1, h2, h3⟩, h4, h4 ▸ h.1, h.2.1⟩

/-! ## REX prefix and register extension across the catalog -/

theorem INST_RM_rex {op : Nat} {rm : RegMem} {s s1 : State} (hop : op < 256)
    (hreg : rm.reg ≤ 15) (hrm : rm.rm ≤ 15) (h : INST_RM op rm s = some s1) :
    emittedFrom s.wptr s1 =
      (0x48 ||| (((rm.reg >>> 3) &&& 1) <<< 2) ||| ((rm.rm >>> 3) &&& 1)) :: op ::
        modrmByte rm :: (sibBytes rm ++ dispBytes rm) := by
  rw [(INST_RM_emits h).emittedFrom_eq, rexByte_eq rm hreg hrm, Nat.mod_eq_of_lt hop]

theorem INST_MI_rex {op regv imm : Nat} {rm : RegMem} {s s1 : State} (hop : op < 256)
    (hreg : regv ≤ 15) (hrm : rm.rm ≤ 15) (h : INST_MI op regv rm imm s = some s1) :
    emittedFrom s.wptr s1 =
      (0x48 ||| (((regv >>> 3) &&& 1) <<< 2) ||| ((rm.rm >>> 3) &&& 1)) :: op ::
        modrmByte { rm with reg := regv } :: ((sibBytes rm ++ dispBytes rm) ++ leBytes imm 4) := by
  rw [(INST_MI_emits h).emittedFrom_eq, rexByte_eq { rm with reg := regv } hreg hrm,
    Nat.mod_eq_of_lt hop]
  rfl

theorem INST_M_bytes {op regv : Nat} {rm : RegMem} {s s1 : State} (hop : op < 256)
    (h : INST_M op regv rm s = some s1) :
    emittedFrom s.wptr s1 =
      op :: modrmByte { rm with reg := regv } :: (sibBytes rm ++ dispBytes rm) := by
  rw [(INST_M_emits h).emittedFrom_eq, Nat.mod_eq_of_lt hop]

theorem rex_and_F8 (a b : Nat) (ha : a ≤ 15) (hb : b ≤ 15) :
    (0x48 ||| (((a >>> 3) &&& 1) <<< 2) ||| ((b >>> 3) &&& 1)) &&& 0xF8 = 0x48 := by
  have key : ∀ x, x < 16 → ∀ y, y < 16 →
      (0x48 ||| (((x >>> 3) &&& 1) <<< 2) ||| ((y >>> 3) &&& 1)) &&& 0xF8 = 0x48 := by
    decide
  exact key a (by omega) b (by omega)

/-- C4 (amended): for the twelve register/memory pair and immediate forms
(`MovRMReg`, `MovRegRM`, `AddRMReg`, `AddRegRM`, `SubRMReg`, `SubRegRM`, `CmpRMReg`,
`CmpRegRM`, `MovRMImm`, `AddRMImm`, `SubRMImm`, `CmpRMImm`) and every descriptor with
`reg`, `rm` in [0,15], the first byte emitted is a REX prefix with
`byte & 0xF8 == 0x48`, followed by the opcode and then the ModRM byte.  `Call`, for a
descriptor with `rm` in [0,7], emits no REX prefix: its first byte is the opcode
`0xFF`, followed by the ModRM byte.  Here `rm` is the descriptor as the catalog
function hands it to the operand encoder (`Instr.modrmForm`). -/
theorem rex_prefix_first (i : Instr) (op : Nat) (rm : RegMem) (s s1 : State)
    (hform : i.modrmForm = some (op, rm)) (hreg : rm.reg ≤ 15) (hrm : rm.rm ≤ 15)
    (h : exec i s = some s1) :
    (i.isCall = false → ∃ rex rest,
      emittedFrom s.wptr s1 =
        rex :: op :: (((rm.mod &&& 3) <<< 6) ||| ((rm.reg &&& 7) <<< 3) ||| (rm.rm &&& 7)) :: rest ∧
      rex &&& 0xF8 = 0x48) ∧
    (i.isCall = true → rm.rm ≤ 7 → ∃ rest,
      emittedFrom s.wptr s1 =
        0xFF :: (((rm.mod &&& 3) <<< 6) ||| ((rm.reg &&& 7) <<< 3) ||| (rm.rm &&& 7)) :: rest) := by
  cases i <;> simp only [Instr.modrmForm, Option.some.injEq, Prod.mk.injEq, reduceCtorEq] at hform
  case MovRMImm rm0 imm =>
    obtain ⟨rfl, rfl⟩ := hform
    exact ⟨fun _ => ⟨_, _, INST_MI_rex (by omega) hreg hrm h, rex_and_F8 _ _ hreg hrm⟩,
      fun hc => Bool.noConfusion hc⟩
  case AddRMImm rm0 imm =>
    obtain ⟨rfl, rfl⟩ := hform
    exact ⟨fun _ => ⟨_, _, INST_MI_rex (by omega) hreg hrm h, rex_and_F8 _ _ hreg hrm⟩,
      fun hc => Bool.noConfusion hc⟩
  case SubRMImm rm0 imm =>
    obtain ⟨rfl, rfl⟩ := hform
    exact ⟨fun _ => ⟨_, _, INST_MI_rex (by omega) hreg hrm h, rex_and_F8 _ _ hreg hrm⟩,
      fun hc => Bool.noConfusion hc⟩
  case CmpRMImm rm0 imm =>
    obtain ⟨rfl, rfl⟩ := hform
    exact ⟨fun _ => ⟨_, _, INST_MI_rex (by omega) hreg hrm h, rex_and_F8 _ _ hreg hrm⟩,
      fun hc => Bool.noConfusion hc⟩
  case Call rm0 =>
    obtain ⟨rfl, rfl⟩ := hform
    exact ⟨fun hc => Bool.noConfusion hc, fun _ _ => ⟨_, INST_M_bytes (by omega) h⟩⟩
  all_goals
    obtain ⟨rfl, rfl⟩ := hform
    exact ⟨fun _ => ⟨_, _, INST_RM_rex (by omega) hreg hrm h, rex_and_F8 _ _ hreg hrm⟩,
      fun hc => Bool.noConfusion hc⟩

/-- Counterexample for C4: `Call({.mod=DIRECT, .rm=RAX})` (line 240 of `main`) emits
the two bytes `FF D0`; the first byte is the opcode, not a REX prefix. -/
theorem Call_first_byte_not_rex :
    (exec (Instr.Call { mod := DIRECT, rm := RAX }) main_s0).map (emittedFrom main_s0.wptr)
      = some [0xFF, 0xD0] ∧
    ¬ (0xFF &&& 0xF8 = 0x48) := by
  decide

/-- Witness for C4: line 218 of `main` with `i = 0` emits `48 C7 45 C0 05 00 00 00`. -/
theorem rex_prefix_first_witness :
    ((Instr.MovRMImm { mod := INDIRECT_8, rm := RBP, disp := disp8Cell (-0x40) } 5).modrmForm
        = some (0xc7, { mod := INDIRECT_8, rm := RBP, disp := disp8Cell (-0x40) }) ∧
      RAX ≤ 15 ∧ RBP ≤ 15 ∧
      exec (Instr.MovRMImm { mod := INDIRECT_8, rm := RBP, disp := disp8Cell (-0x40) } 5) main_s0
        = some after_MovRMImm) ∧
    (∃ rex rest, emittedFrom main_s0.wptr after_MovRMImm = rex :: 0xc7 :: 0x45 :: rest ∧
      rex &&& 0xF8 = 0x48) ∧
    emittedFrom main_s0.wptr after_MovRMImm = [0x48, 0xc7, 0x45, 0xc0, 5, 0, 0, 0] :=
  have h : exec (Instr.MovRMImm { mod := INDIRECT_8, rm := RBP, disp := disp8Cell (-0x40) } 5)
      main_s0 = some after_MovRMImm := some_getD_of_isSome (by decide)
  ⟨⟨rfl, by decide, by decide, h⟩,
    (rex_prefix_first
      (Instr.MovRMImm { mod := INDIRECT_8, rm := RBP, disp := disp8Cell (-0x40) } 5) 0xc7
      { mod := INDIRECT_8, rm := RBP, disp := disp8Cell (-0x40) }
      main_s0 after_MovRMImm rfl (by decide) (by decide) h).1 rfl,
    by decide⟩

theorem INST_O_low {op r : Nat} {s s1 : State} (hop : op + r < 256)
    (h : INST_O op r s = some s1) : emittedFrom s.wptr s1 = [op + r] := by
  rw [(INST_O_emits h).emittedFrom_eq, Nat.mod_eq_of_lt hop]

theorem INST_OI_low {op r imm : Nat} {s s1 : State} (hop : op + r < 256)
    (h : INST_OI op r imm s = some s1) :
    emittedFrom s.wptr s1 = 0x48 :: (op + r) :: leBytes imm 8 := by
  rw [(INST_OI_emits h).emittedFrom_eq, Nat.mod_eq_of_lt hop]

theorem and7_of_le (r : Nat) (h : r ≤ 7) : r &&& 7 = r := by
  interval_cases r <;> rfl

/-- C5 (amended): for the `reg` and `rm` operands of the eight register/memory pair
forms and every register in [0,15], the REX prefix carries the extension bit
`(r >> 3) & 1` of that operand (bit 2 for `reg`, bit 0 for `rm`) and the ModRM field
carrying the register holds `r & 7`.  `Push`, `Pop`, `MovRegImm` and `Call` have no
register-extension bit: for `r` in [0,7], `Push` and `Pop` emit the single byte
`opcode + r`, `MovRegImm` emits the fixed prefix `0x48` and then `0xB8 + r`, and
`Call` emits the opcode and a ModRM byte with `rm` field `r`, without a prefix. -/
theorem register_extension (i : Instr) (s s1 : State) (h : exec i s = some s1) :
    match i with
    | .Push r => r ≤ 7 → emittedFrom s.wptr s1 = [0x50 + r]
    | .Pop r => r ≤ 7 → emittedFrom s.wptr s1 = [0x58 + r]
    | .MovRegImm r imm => r ≤ 7 → emittedFrom s.wptr s1 = 0x48 :: (0xb8 + r) :: leBytes imm 8
    | .Call rm => rm.rm ≤ 7 → ∃ rest,
        emittedFrom s.wptr s1 = 0xff :: (((rm.mod &&& 3) <<< 6) ||| (2 <<< 3) ||| rm.rm) :: rest
    | .MovRMReg rm | .MovRegRM rm | .AddRMReg rm | .AddRegRM rm
    | .SubRMReg rm | .SubRegRM rm | .CmpRMReg rm | .CmpRegRM rm =>
        rm.reg ≤ 15 → rm.rm ≤ 15 → ∃ op rest,
          emittedFrom s.wptr s1 =
            (0x48 ||| (((rm.reg >>> 3) &&& 1) <<< 2) ||| ((rm.rm >>> 3) &&& 1)) :: op ::
              (((rm.mod &&& 3) <<< 6) ||| ((rm.reg &&& 7) <<< 3) ||| (rm.rm &&& 7)) :: rest
    | _ => True := by
  cases i with
  | Push r => exact fun hr => INST_O_low (by omega) h
  | Pop r => exact fun hr => INST_O_low (by omega) h
  | MovRegImm r imm => exact fun hr => INST_OI_low (by omega) h
  | Call rm =>
    intro hr
    refine ⟨sibBytes rm ++ dispBytes rm, (INST_M_bytes (by omega) h).trans ?_⟩
    simp only [modrmByte, and7_of_le rm.rm hr]
    rfl
  | MovRMReg rm => exact fun h1 h2 => ⟨_, _, INST_RM_rex (by omega) h1 h2 h⟩
  | MovRegRM rm => exact fun h1 h2 => ⟨_, _, INST_RM_rex (by omega) h1 h2 h⟩
  | AddRMReg rm => exact fun h1 h2 => ⟨_, _, INST_RM_rex (by omega) h1 h2 h⟩
  | AddRegRM rm => exact fun h1 h2 => ⟨_, _, INST_RM_rex (by omega) h1 h2 h⟩
  | SubRMReg rm => exact fun h1 h2 => ⟨_, _, INST_RM_rex (by omega) h1 h2 h⟩
  | SubRegRM rm => exact fun h1 h2 => ⟨_, _, INST_RM_rex (by omega) h1 h2 h⟩
  | CmpRMReg rm => exact fun h1 h2 => ⟨_, _, INST_RM_rex (by omega) h1 h2 h⟩
  | CmpRegRM rm => exact fun h1 h2 => ⟨_, _, INST_RM_rex (by omega) h1 h2 h⟩
  | _ => trivial

/-- Counterexample for C5: `Push(R8)` emits the single byte `0x58`, which is no REX
prefix (those are `0x40`-`0x4F`) and is byte for byte what `Pop(RAX)` emits;
`MovRegImm(R8, 0)` emits the prefix `0x48`, whose extension bit is 0 although
`(R8 >> 3) & 1 = 1`, and the opcode byte `0xC0`. -/
theorem Push_r8_no_rex :
    (exec (Instr.Push R8) main_s0).map (emittedFrom main_s0.wptr) = some [0x58] ∧
    ¬ (0x58 &&& 0xF0 = 0x40) ∧
    (exec (Instr.Pop RAX) main_s0).map (emittedFrom main_s0.wptr) = some [0x58] ∧
    (exec (Instr.MovRegImm R8 0) main_s0).map (emittedFrom main_s0.wptr)
      = some [0x48, 0xC0, 0, 0, 0, 0, 0, 0, 0, 0] ∧
    0x48 &&& 1 = 0 ∧ (R8 >>> 3) &&& 1 = 1 := by
  decide

/-- Witness for C5: `MovRegRM({.mod=DIRECT, .reg=R9, .rm=RBX})` emits the prefix
`0x4C` (extension bit of `reg` set, of `rm` clear) and the ModRM byte `0xCB`. -/
theorem register_extension_witness :
    exec (Instr.MovRegRM { mod := DIRECT, reg := R9, rm := RBX }) main_s0
      = some after_MovRegRM_r9 ∧
    ∃ op rest, emittedFrom main_s0.wptr after_MovRegRM_r9 = 0x4C :: op :: 0xCB :: rest :=
  have h : exec (Instr.MovRegRM { mod := DIRECT, reg := R9, rm := RBX }) main_s0
      = some after_MovRegRM_r9 := some_getD_of_isSome (by decide)
  ⟨h, register_extension (Instr.MovRegRM { mod := DIRECT, reg := R9, rm := RBX }) main_s0
    after_MovRegRM_r9 h (by decide) (by decide)⟩

/-! ## Conditional jumps and the displacement round trip: evaluations -/

/-- C1, evaluated at the `JmpCond(JLE, target)` call of `main` (line 235): the
target is `code + 62`, the cursor is `code + 91`, so the offset from the end of the
short form is `d = -31`, inside [-128,127]; `JmpCond` emits the six bytes
`0F 8E DD FF FF FF` of the long form and moves the cursor by 6. -/
theorem JmpCond_main_emits_long :
    (main_head main_s0).map (fun x => (x.2.1, x.2.2.wptr, x.2.2.code))
      = some (0x10000 + 62, 0x10000 + 91, 0x10000) ∧
    ((0x10000 + 62 : Int) - ((0x10000 + 91) + 2) = -31) ∧
    (main_head main_s0).bind (fun x =>
        (JmpCond JLE x.2.1 x.2.2).map (fun s1 => (emittedFrom x.2.2.wptr s1, s1.wptr)))
      = some ([0x0F, 0x8E, 0xDD, 0xFF, 0xFF, 0xFF], 0x10000 + 91 + 6) := by
  decide

/-- C2, evaluated at `JmpCond(JE, code + 200)` with the cursor at `code`: the short
form `74 C6` is emitted; its displacement byte read as a signed 8-bit value is `-58`,
and the end of the instruction plus `-58` is `code - 56`, not the target. -/
theorem JmpCond_forward_displacement :
    (main_s0.wptr = main_s0.code ∧ main_s0.wptr + 200 < main_s0.code_end) ∧
    (JmpCond JE (main_s0.wptr + 200) main_s0).map (fun s1 =>
        (emittedFrom main_s0.wptr s1, toS8 (s1.mem (main_s0.wptr + 1)),
          ((main_s0.wptr : Int) + 2) + toS8 (s1.mem (main_s0.wptr + 1))))
      = some ([0x74, 0xC6], -58, (main_s0.wptr : Int) - 56) ∧
    ¬ ((main_s0.wptr : Int) - 56 = ((main_s0.wptr + 200 : Nat) : Int)) := by
  decide

/-- C8, evaluated at `MovRegRM({.mod=INDIRECT_8, .reg=RAX, .rm=R12, .disp8=5})`:
the four bytes `49 8B 44 05` are emitted, with no SIB byte although the ModRM byte
`0x44` names `rm` field 4; decoding them does not give displacement 5: the emitted
bytes end before a displacement is reached, and read on in memory the decoder takes
the displacement byte for the SIB byte and returns displacement 0. -/
theorem disp8_roundtrip_R12 :
    ({ mod := INDIRECT_8, reg := RAX, rm := R12, disp := disp8Cell 5 } : RegMem).disp8 = 5 ∧
    (MovRegRM { mod := INDIRECT_8, reg := RAX, rm := R12, disp := disp8Cell 5 } main_s0).map
        (fun s1 => (emittedFrom main_s0.wptr s1, decodeDisp8 (emittedFrom main_s0.wptr s1),
          decodeDisp8 (readBytes s1.mem main_s0.wptr 8)))
      = some ([0x49, 0x8B, 0x44, 0x05], none, some (1, 0)) := by
  decide

/-! ## `EmitCode`: assertion, frame and footprint -/

/-- C11 (amended): `EmitCode(value, cnt)` hits the fatal assertion if and only if
`wptr + cnt` reaches or exceeds the end of the code region
(`wptr + cnt >= code_end`); it succeeds if and only if `wptr + cnt < code_end`.  An
emit that would fill the region exactly to its end hits the assertion. -/
theorem EmitCode_assert_iff (value cnt : Nat) (s : State) :
    (EmitCode value cnt s = none ↔ s.code_end ≤ s.wptr + cnt) ∧
    ((∃ s1, EmitCode value cnt s = some s1) ↔ s.wptr + cnt < s.code_end) := by
  constructor
  · unfold EmitCode Assert
    by_cases h : s.wptr + cnt < s.code_end
    · simp [h]
    · simp [h]; omega
  · constructor
    · rintro ⟨s1, h⟩
      exact EmitCode_room h
    · exact fun h => EmitCode_isSome value cnt s h

/-- Counterexample for C11: with the cursor four bytes before the end of the code
region, `cursor + 4 <= capacity` holds (the emit would fill the region exactly), and
`EmitCode(value, 4)` hits the assertion. -/
theorem EmitCode_exact_fill_asserts :
    exact_fill_state.wptr + 4 ≤ exact_fill_state.code_end ∧
    exact_fill_state.code ≤ exact_fill_state.wptr ∧
    (EmitCode 0x90909090 4 exact_fill_state).isSome = false := by
  decide

theorem store64_outside (m : Nat → Nat) (w v a : Nat) (h : a < w ∨ w + 8 ≤ a) :
    store64 m w v a = m a := by
  unfold store64
  rw [if_neg]; omega

/-- C12 (amended): for every value, every `cnt` in {1, 4, 8} and every state in which
the emit succeeds, every byte of memory outside `[old cursor, old cursor + 8)` has
the same value after the call as before it: the call stores eight bytes whatever
`cnt` is, so the bytes in `[old cursor + cnt, old cursor + 8)` receive the higher
bytes of `value`.  The data cursor and the bounds of both regions are unchanged, and
the data region is unchanged when it does not overlap the eight stored bytes. -/
theorem EmitCode_frame (value cnt : Nat) (s s1 : State)
    (_hcnt : cnt = 1 ∨ cnt = 4 ∨ cnt = 8) (h : EmitCode value cnt s = some s1) :
    (∀ a, a < s.wptr ∨ s.wptr + 8 ≤ a → s1.mem a = s.mem a) ∧
    (∀ i, cnt ≤ i → i < 8 → s1.mem (s.wptr + i) = (value >>> (8 * i)) &&& 0xFF) ∧
    s1.data_wptr = s.data_wptr ∧ s1.data = s.data ∧ s1.data_end = s.data_end ∧
    s1.code = s.code ∧ s1.code_end = s.code_end ∧
    (s.data_end ≤ s.wptr ∨ s.wptr + 8 ≤ s.data →
      ∀ a, s.data ≤ a → a < s.data_end → s1.mem a = s.mem a) := by
  obtain ⟨_, rfl⟩ := (EmitCode_eq_some_iff value cnt s s1).mp h
  refine ⟨fun a ha => store64_outside s.mem s.wptr value a ha,
    fun i _ hi => store64_at s.mem s.wptr value i hi, rfl, rfl, rfl, rfl, rfl, ?_⟩
  intro hd a ha1 ha2
  exact store64_outside s.mem s.wptr value a (by omega)

/-- Counterexample for C12: inside the first `MovRMImm` of `main`, the call
`EmitCode(5, 4)` changes the byte at `cursor + 4`, which lies in the code region and
outside `[cursor, cursor + 4)`, from `0xFF` (left there by the store of the
displacement) to `0x00`. -/
theorem EmitCode_changes_beyond_cnt :
    EmitCode 5 4 main_in_MovRMImm = some main_after_imm ∧
    main_in_MovRMImm.code ≤ main_in_MovRMImm.wptr + 4 ∧
    main_in_MovRMImm.wptr + 4 < main_in_MovRMImm.code_end ∧
    main_in_MovRMImm.mem (main_in_MovRMImm.wptr + 4) = 0xFF ∧
    main_after_imm.mem (main_in_MovRMImm.wptr + 4) = 0x00 :=
  ⟨some_getD_of_isSome (by decide), by decide, by decide, by decide, by decide⟩

/-- Witness for C12: the same call of `main`; the byte just below the cursor (the
displacement `0xC0`) and the byte at `cursor + 8` keep their values. -/
theorem EmitCode_frame_witness :
    ((4 = 1 ∨ 4 = 4 ∨ 4 = 8) ∧ EmitCode 5 4 main_in_MovRMImm = some main_after_imm) ∧
    main_after_imm.mem (main_in_MovRMImm.wptr - 1) = 0xC0 ∧
    main_after_imm.mem (main_in_MovRMImm.wptr + 8)
      = main_in_MovRMImm.mem (main_in_MovRMImm.wptr + 8) ∧
    main_after_imm.data_wptr = main_in_MovRMImm.data_wptr :=
  have h : EmitCode 5 4 main_in_MovRMImm = some main_after_imm :=
    some_getD_of_isSome (by decide)
  have f := EmitCode_frame 5 4 main_in_MovRMImm main_after_imm (by decide) h
  ⟨⟨by decide, h⟩,
    (f.1 (main_in_MovRMImm.wptr - 1) (Or.inl (by decide))).trans (by decide),
    f.1 (main_in_MovRMImm.wptr + 8) (Or.inr (Nat.le_refl _)), f.2.2.1⟩

/-- C13, evaluated at `EmitCode(0, 1)` with the cursor two bytes before the end of the
4096-byte code region: the assertion passes (`wptr + 1 < code_end`), the store
covers the offsets 4094 to 4101, and the bytes at the six offsets 4096 to 4101,
beyond the end of the region, are overwritten (they held `0xCC`, they hold `0`). -/
theorem EmitCode_stores_past_end :
    near_end_state.wptr + 1 < near_end_state.code_end ∧
    (store64Footprint near_end_state.wptr).map (fun a => a - near_end_state.code)
      = [4094, 4095, 4096, 4097, 4098, 4099, 4100, 4101] ∧
    near_end_state.code_end - near_end_state.code = 4096 ∧
    readBytes near_end_state.mem near_end_state.code_end 6
      = [0xCC, 0xCC, 0xCC, 0xCC, 0xCC, 0xCC] ∧
    (EmitCode 0 1 near_end_state).map (fun s1 => readBytes s1.mem near_end_state.code_end 6)
      = some [0, 0, 0, 0, 0, 0] := by
  decide

/-! ## `MovRegImm` -/

theorem leValue_leBytes_8 (v : Nat) : leValue (leBytes v 8) = v % 2 ^ 64 := by
  simp only [leBytes, leBytesFrom, leValue, byteAt_eq]
  norm_num
  omega

theorem leValue_leBytes_4 (v : Nat) : leValue (leBytes v 4) = v % 2 ^ 32 := by
  simp only [leBytes, leBytesFrom, leValue, byteAt_eq]
  norm_num
  omega

theorem INST_OI_isSome (op reg imm : Nat) (s : State) (h : s.wptr + 10 < s.code_end) :
    ∃ s1, INST_OI op reg imm s = some s1 := by
  unfold INST_OI
  obtain ⟨sa, ha⟩ := EmitCode_isSome REXW 1 s (by omega)
  have ea := EmitREXW_emits ha
  have wa : sa.wptr = s.wptr + 1 := ea.wptr_eq
  have ca := ea.code_end_eq
  obtain ⟨sb, hb⟩ := EmitCode_isSome (op + reg) 1 sa (by omega)
  have eb := EmitOpcode_emits hb
  have wb : sb.wptr = sa.wptr + 1 := eb.wptr_eq
  have cb := eb.code_end_eq
  obtain ⟨sc, hc⟩ := EmitCode_isSome imm 8 sb (by omega)
  have ha1 : EmitREXW s = some sa := ha
  have hb1 : EmitOpcode (op + reg) sa = some sb := hb
  exact ⟨sc, by rw [ha1, Option.some_bind, hb1, Option.some_bind, hc]⟩

/-- C14: for every register `r` in [0,15] and every 64-bit immediate `imm`,
`MovRegImm(r, imm)`, given room for ten bytes, emits exactly 10 bytes: the REX
prefix `0x48`, then the byte `0xB8 + r`, then `imm` as 8 little-endian bytes;
reading the last 8 bytes little-endian returns `imm`. -/
theorem MovRegImm_encoding (r imm : Nat) (s : State) (hr : r ≤ 15) (himm : imm < 2 ^ 64)
    (hroom : s.wptr + 10 < s.code_end) :
    ∃ s1, MovRegImm r imm s = some s1 ∧ s1.wptr = s.wptr + 10 ∧
      emittedFrom s.wptr s1 = 0x48 :: (0xB8 + r) :: leBytes imm 8 ∧
      (emittedFrom s.wptr s1).length = 10 ∧
      0x48 &&& 0xF0 = 0x40 ∧
      leValue ((emittedFrom s.wptr s1).drop 2) = imm := by
  obtain ⟨s1, h⟩ := INST_OI_isSome 0xb8 r imm s hroom
  have e := INST_OI_emits h
  have hb : (0xb8 + r) % 256 = 0xB8 + r := Nat.mod_eq_of_lt (by omega)
  rw [hb] at e
  have hw := e.wptr_eq
  simp only [List.length_cons, length_leBytes] at hw
  refine ⟨s1, h, hw, e.emittedFrom_eq, ?_, by decide, ?_⟩
  · rw [e.emittedFrom_eq]
    simp only [List.length_cons, length_leBytes]
  · rw [e.emittedFrom_eq]
    simp only [List.drop_succ_cons, List.drop_zero]
    rw [leValue_leBytes_8, Nat.mod_eq_of_lt himm]

/-- Witness for C14: `MovRegImm(RCX, 0x1122334455667788)` into the empty code
region. -/
theorem MovRegImm_encoding_witness :
    (RCX ≤ 15 ∧ 0x1122334455667788 < 2 ^ 64 ∧ main_s0.wptr + 10 < main_s0.code_end) ∧
    ∃ s1, MovRegImm RCX 0x1122334455667788 main_s0 = some s1 ∧
      s1.wptr = main_s0.wptr + 10 ∧
      emittedFrom main_s0.wptr s1
        = [0x48, 0xB9, 0x88, 0x77, 0x66, 0x55, 0x44, 0x33, 0x22, 0x11] :=
  ⟨⟨by decide, by decide, by decide⟩,
    match MovRegImm_encoding RCX 0x1122334455667788 main_s0 (by decide) (by decide)
      (by decide) with
    | ⟨s1, h, hw, he, _⟩ => ⟨s1, h, hw, he.trans (by decide)⟩⟩

/-! ## The SIB escape for `R12` -/

/-- C16, evaluated at `EmitModRM({.mod=INDIRECT, .reg=RAX, .rm=R12})`: the single
byte `0x04` is emitted; its mode field is 0 (indirect), its `rm` field is `0b100`,
and no SIB byte follows it.  With `rm = RSP` the same call emits the two bytes
`04 00`. -/
theorem EmitModRM_R12_no_sib :
    (EmitModRM { mod := INDIRECT, reg := RAX, rm := R12 } main_s0).map
        (fun s1 => (emittedFrom main_s0.wptr s1, s1.wptr - main_s0.wptr))
      = some ([0x04], 1) ∧
    0x04 >>> 6 = INDIRECT ∧ 0x04 &&& 7 = 0b100 ∧
    (EmitModRM { mod := INDIRECT, reg := RAX, rm := RSP } main_s0).map
        (fun s1 => (emittedFrom main_s0.wptr s1, s1.wptr - main_s0.wptr))
      = some ([0x04, 0x00], 2) := by
  decide

/-! ## The data region -/

/-- C15, evaluated at `WriteStringToData("%d\n")` with the data cursor two bytes
before the end of the 4096-byte data region: the call returns (there is no failure
path), the data cursor becomes `data + 4098`, beyond `data_end = data + 4096`, and
the bytes at the offsets 4096 and 4097, outside the region, are overwritten with
`'\n'` and the terminating NUL. -/
theorem WriteStringToData_overruns :
    data_near_end_state.data_wptr ≤ data_near_end_state.data_end ∧
    data_near_end_state.data_end = data_near_end_state.data + 4096 ∧
    (WriteStringToData [0x25, 0x64, 0x0a] data_near_end_state).1
      = data_near_end_state.data + 4094 ∧
    (WriteStringToData [0x25, 0x64, 0x0a] data_near_end_state).2.data_wptr
      = data_near_end_state.data + 4098 ∧
    (WriteStringToData [0x25, 0x64, 0x0a] data_near_end_state).2.data_end
      = data_near_end_state.data + 4096 ∧
    readBytes data_near_end_state.mem (data_near_end_state.data + 4094) 4
      = [0xCC, 0xCC, 0xCC, 0xCC] ∧
    readBytes (WriteStringToData [0x25, 0x64, 0x0a] data_near_end_state).2.mem
        (data_near_end_state.data + 4094) 4
      = [0x25, 0x64, 0x0a, 0x00] := by
  decide

/-! ## Backward conditional jumps -/

theorem byteAt_mod_32 (v i : Nat) (h : i < 4) : byteAt (v % 2 ^ 32) i = byteAt v i := by
  rw [byteAt_eq, byteAt_eq]
  interval_cases i <;> norm_num <;> omega

theorem toU32_eq_toU64_mod (d : Int) : toU32 d = toU64 d % 2 ^ 32 := by
  unfold toU32 toU64
  norm_num
  omega

theorem leBytes_4_toU64 (d : Int) : leBytes (toU64 d) 4 = leBytes (toU32 d) 4 := by
  simp only [leBytes, leBytesFrom, toU32_eq_toU64_mod]
  rw [byteAt_mod_32 _ 0 (by omega), byteAt_mod_32 _ 1 (by omega),
    byteAt_mod_32 _ 2 (by omega), byteAt_mod_32 _ 3 (by omega)]

theorem toU32_truncS32 (d : Int) : toU32 (truncS32 d) = toU32 d := by
  unfold truncS32 toS32 toU32
  norm_num
  split <;> omega

theorem toU32_backward (d : Int) (h1 : d ≤ -6) (h2 : -(2 ^ 31) ≤ d) : ¬ toU32 d < 255 := by
  unfold toU32
  norm_num at h2 ⊢
  omega

theorem toS32_toU32 (d : Int) (h1 : d < 2 ^ 31) (h2 : -(2 ^ 31) ≤ d) :
    toS32 (toU32 d) = d := by
  unfold toS32 toU32
  norm_num at h1 h2 ⊢
  split <;> omega

theorem JmpCond_long_isSome (cond target : Nat) (s : State)
    (hlong : ¬ toU32 (truncS32 ((target : Int) - ((s.wptr : Int) + 6))) < 255)
    (hroom : s.wptr + 6 < s.code_end) :
    ∃ s1, JmpCond cond target s = some s1 := by
  unfold JmpCond
  simp only [if_neg hlong]
  obtain ⟨sa, ha⟩ := EmitCode_isSome 0x0f 1 s (by omega)
  have ea := EmitOpcode_emits ha
  have wa : sa.wptr = s.wptr + 1 := ea.wptr_eq
  have ca := ea.code_end_eq
  obtain ⟨sb, hb⟩ := EmitCode_isSome (0x80 + cond) 1 sa (by omega)
  have eb := EmitOpcode_emits hb
  have wb : sb.wptr = sa.wptr + 1 := eb.wptr_eq
  have cb := eb.code_end_eq
  obtain ⟨sc, hc⟩ :=
    EmitCode_isSome (toU64 ((target : Int) - ((sb.wptr : Int) + 4))) 4 sb (by omega)
  have ha1 : EmitOpcode 0x0f s = some sa := ha
  have hb1 : EmitOpcode (0x80 + cond) sa = some sb := hb
  exact ⟨sc, by rw [ha1, Option.some_bind, hb1, Option.some_bind, hc]⟩

/-- C19: for every condition code (`cond` in [0,15]) and every target in the code
region at or before the cursor (`code <= target <= wptr`), in a code region of less
than 2^31 bytes with room for six bytes, `JmpCond` emits exactly 6 bytes: `0x0F`,
`0x80 + cond` and the 4-byte little-endian displacement `target - (wptr + 6)` in
32-bit two's complement, and advances the cursor by 6; the displacement read back
as a signed 32-bit value and added to the end of the instruction is the target. -/
theorem JmpCond_backward (cond target : Nat) (s : State) (hcond : cond ≤ 15)
    (hcode : s.code ≤ target) (hback : target ≤ s.wptr)
    (hsize : s.code_end - s.code < 2 ^ 31) (hroom : s.wptr + 6 < s.code_end) :
    ∃ s1, JmpCond cond target s = some s1 ∧ s1.wptr = s.wptr + 6 ∧
      emittedFrom s.wptr s1 =
        0x0F :: (0x80 + cond) :: leBytes (toU32 ((target : Int) - ((s.wptr : Int) + 6))) 4 ∧
      toS32 (leValue (leBytes (toU32 ((target : Int) - ((s.wptr : Int) + 6))) 4))
        + ((s.wptr : Int) + 6) = (target : Int) := by
  have hd1 : (target : Int) - ((s.wptr : Int) + 6) ≤ -6 := by omega
  have hd2 : -(2 ^ 31) ≤ (target : Int) - ((s.wptr : Int) + 6) := by
    norm_num at hsize ⊢
    omega
  have hlong : ¬ toU32 (truncS32 ((target : Int) - ((s.wptr : Int) + 6))) < 255 := by
    rw [toU32_truncS32]
    exact toU32_backward _ hd1 hd2
  obtain ⟨s1, h⟩ := JmpCond_long_isSome cond target s hlong hroom
  have e := JmpCond_emits h
  rw [if_neg hlong, leBytes_4_toU64, Nat.mod_eq_of_lt (by omega : 0x80 + cond < 256)] at e
  have hw := e.wptr_eq
  simp only [List.length_cons, length_leBytes] at hw
  refine ⟨s1, h, hw, e.emittedFrom_eq, ?_⟩
  have hlt : toU32 ((target : Int) - ((s.wptr : Int) + 6)) < 2 ^ 32 := by
    unfold toU32
    norm_num
    omega
  rw [leValue_leBytes_4, Nat.mod_eq_of_lt hlt, toS32_toU32 _ (by omega) hd2]
  omega

/-- Witness for C19: the `JmpCond(JLE, target)` call of `main` (line 235), with
`target = code + 62` and the cursor at `code + 91`: the bytes `0F 8E DD FF FF FF`. -/
theorem JmpCond_backward_witness :
    (JLE ≤ 15 ∧ main_at_JmpCond.code ≤ main_at_target.wptr ∧
      main_at_target.wptr ≤ main_at_JmpCond.wptr ∧
      main_at_JmpCond.code_end - main_at_JmpCond.code < 2 ^ 31 ∧
      main_at_JmpCond.wptr + 6 < main_at_JmpCond.code_end) ∧
    ∃ s1, JmpCond JLE main_at_target.wptr main_at_JmpCond = some s1 ∧
      s1.wptr = main_at_JmpCond.wptr + 6 ∧
      emittedFrom main_at_JmpCond.wptr s1 = [0x0F, 0x8E, 0xDD, 0xFF, 0xFF, 0xFF] :=
  ⟨⟨by decide, by decide, by decide, by decide, by decide⟩,
    match JmpCond_backward JLE main_at_target.wptr main_at_JmpCond (by decide) (by decide)
      (by decide) (by decide) (by decide) with
    | ⟨s1, h, hw, he, _⟩ => ⟨s1, h, hw, he.trans (by decide)⟩⟩

/-! ## Register fields of the pair forms -/

set_option maxRecDepth 100000 in
theorem modrm_rex_fields :
    ∀ m, m < 4 → ∀ a, a < 16 → ∀ b, b < 16 →
      ((m &&& 3) <<< 6) ||| ((a &&& 7) <<< 3) ||| (b &&& 7)
        = (m <<< 6) ||| ((a &&& 7) <<< 3) ||| (b &&& 7) ∧
      (((0x48 ||| (((a >>> 3) &&& 1) <<< 2) ||| ((b >>> 3) &&& 1)) >>> 2) &&& 1) * 8
        + ((((m <<< 6) ||| ((a &&& 7) <<< 3) ||| (b &&& 7)) >>> 3) &&& 7) = a ∧
      ((0x48 ||| (((a >>> 3) &&& 1) <<< 2) ||| ((b >>> 3) &&& 1)) &&& 1) * 8
        + (((m <<< 6) ||| ((a &&& 7) <<< 3) ||| (b &&& 7)) &&& 7) = b ∧
      ((m <<< 6) ||| ((a &&& 7) <<< 3) ||| (b &&& 7)) >>> 6 = m := by
  decide

theorem pairOperand_emits {i : Instr} {rm : RegMem} {s s1 : State}
    (hop : i.pairOperand = some rm) (hreg : rm.reg ≤ 15) (hrm : rm.rm ≤ 15)
    (h : exec i s = some s1) :
    ∃ op, emittedFrom s.wptr s1 =
      (0x48 ||| (((rm.reg >>> 3) &&& 1) <<< 2) ||| ((rm.rm >>> 3) &&& 1)) :: op ::
        modrmByte rm :: (sibBytes rm ++ dispBytes rm) := by
  cases i <;> simp only [Instr.pairOperand, Option.some.injEq, reduceCtorEq] at hop
  all_goals
    subst hop
    exact ⟨_, INST_RM_rex (by omega) hreg hrm h⟩

/-- C17: for every descriptor with `mod` in [0,3] and `reg`, `rm` in [0,15], each of
the eight register/memory pair instructions emits, after the REX prefix and the
opcode, the ModRM byte `(mod << 6) | ((reg & 7) << 3) | (rm & 7)`, and recombining
it with the REX prefix recovers the descriptor:
`((REX >> 2) & 1) * 8 + ((ModRM >> 3) & 7) = reg`,
`(REX & 1) * 8 + (ModRM & 7) = rm` and `ModRM >> 6 = mod`. -/
theorem register_field_roundtrip (i : Instr) (rm : RegMem) (s s1 : State)
    (hop : i.pairOperand = some rm) (hmod : rm.mod ≤ 3) (hreg : rm.reg ≤ 15)
    (hrm : rm.rm ≤ 15) (h : exec i s = some s1) :
    ∃ rex op modrm rest, emittedFrom s.wptr s1 = rex :: op :: modrm :: rest ∧
      modrm = (rm.mod <<< 6) ||| ((rm.reg &&& 7) <<< 3) ||| (rm.rm &&& 7) ∧
      ((rex >>> 2) &&& 1) * 8 + ((modrm >>> 3) &&& 7) = rm.reg ∧
      (rex &&& 1) * 8 + (modrm &&& 7) = rm.rm ∧
      modrm >>> 6 = rm.mod := by
  obtain ⟨op, he⟩ := pairOperand_emits hop hreg hrm h
  have k := modrm_rex_fields rm.mod (by omega) rm.reg (by omega) rm.rm (by omega)
  have hm : modrmByte rm = (rm.mod <<< 6) ||| ((rm.reg &&& 7) <<< 3) ||| (rm.rm &&& 7) := k.1
  rw [hm] at he
  exact ⟨_, op, _, _, he, rfl, k.2.1, k.2.2.1, k.2.2.2⟩

/-- Witness for C17: `MovRMReg({.mod=INDIRECT_32, .reg=R10, .rm=R13, .disp32=0x100})`
emits `4D 89 95 00 01 00 00`; REX `0x4D` and ModRM `0x95` give back `reg = 10`,
`rm = 13`, `mod = 2`. -/
theorem register_field_roundtrip_witness :
    ((Instr.MovRMReg { mod := INDIRECT_32, reg := R10, rm := R13, disp := 0x100 }).pairOperand
        = some { mod := INDIRECT_32, reg := R10, rm := R13, disp := 0x100 } ∧
      INDIRECT_32 ≤ 3 ∧ R10 ≤ 15 ∧ R13 ≤ 15 ∧
      exec (Instr.MovRMReg { mod := INDIRECT_32, reg := R10, rm := R13, disp := 0x100 }) main_s0
        = some after_MovRMReg_r10) ∧
    emittedFrom main_s0.wptr after_MovRMReg_r10 = [0x4D, 0x89, 0x95, 0x00, 0x01, 0x00, 0x00] ∧
    (∃ rex op modrm rest, emittedFrom main_s0.wptr after_MovRMReg_r10
        = rex :: op :: modrm :: rest ∧
      modrm = (INDIRECT_32 <<< 6) ||| ((R10 &&& 7) <<< 3) ||| (R13 &&& 7) ∧
      ((rex >>> 2) &&& 1) * 8 + ((modrm >>> 3) &&& 7) = R10 ∧
      (rex &&& 1) * 8 + (modrm &&& 7) = R13 ∧
      modrm >>> 6 = INDIRECT_32) :=
  have h : exec (Instr.MovRMReg { mod := INDIRECT_32, reg := R10, rm := R13, disp := 0x100 })
      main_s0 = some after_MovRMReg_r10 := some_getD_of_isSome (by decide)
  ⟨⟨rfl, by decide, by decide, by decide, h⟩, by decide,
    register_field_roundtrip
      (Instr.MovRMReg { mod := INDIRECT_32, reg := R10, rm := R13, disp := 0x100 })
      { mod := INDIRECT_32, reg := R10, rm := R13, disp := 0x100 } main_s0 after_MovRMReg_r10
      rfl (by decide) (by decide) (by decide) h⟩

/-! ## The immediate forms -/

theorem modrm_reg_field (m v b : Nat) :
    ((((m &&& 3) <<< 6) ||| ((v &&& 7) <<< 3) ||| (b &&& 7)) >>> 3) &&& 7 = v &&& 7 := by
  have key : ∀ x, x < 4 → ∀ y, y < 8 → ∀ z, z < 8 →
      (((x <<< 6) ||| (y <<< 3) ||| z) >>> 3) &&& 7 = y := by
    decide
  have h1 : m &&& 3 ≤ 3 := Nat.and_le_right
  have h2 : v &&& 7 ≤ 7 := Nat.and_le_right
  have h3 : b &&& 7 ≤ 7 := Nat.and_le_right
  exact key _ (by omega) _ (by omega) _ (by omega)

theorem rex_reg_bit_clear (v b : Nat) (hv : v ≤ 7) (hb : b ≤ 15) :
    ((0x48 ||| (((v >>> 3) &&& 1) <<< 2) ||| ((b >>> 3) &&& 1)) >>> 2) &&& 1 = 0 := by
  have key : ∀ x, x < 8 → ∀ y, y < 16 →
      ((0x48 ||| (((x >>> 3) &&& 1) <<< 2) ||| ((y >>> 3) &&& 1)) >>> 2) &&& 1 = 0 := by
    decide
  exact key v (by omega) b (by omega)

theorem immForm_emits {i : Instr} {rm : RegMem} {imm regv : Nat} {s s1 : State}
    (hform : i.immForm = some (rm, imm, regv)) (hrm : rm.rm ≤ 15)
    (h : exec i s = some s1) :
    regv ≤ 7 ∧ ∃ op, emittedFrom s.wptr s1 =
      (0x48 ||| (((regv >>> 3) &&& 1) <<< 2) ||| ((rm.rm >>> 3) &&& 1)) :: op ::
        modrmByte { rm with reg := regv } :: ((sibBytes rm ++ dispBytes rm) ++ leBytes imm 4) := by
  cases i <;>
    simp only [Instr.immForm, Option.some.injEq, Prod.mk.injEq, reduceCtorEq] at hform
  all_goals
    obtain ⟨rfl, rfl, rfl⟩ := hform
    exact ⟨by omega, _, INST_MI_rex (by omega) (by omega) hrm h⟩

/-- C18: for `MovRMImm`, `AddRMImm`, `SubRMImm` and `CmpRMImm`, for every descriptor
(register ids in [0,15]) and every 32-bit immediate: the call does not depend on the
descriptor's `reg` field; the ModRM `reg` field equals the catalog constant `regv`
(0, 0, 5 and 7 respectively, see `Instr.immForm`); the REX register-extension bit is
0; and the last 4 emitted bytes are the immediate in little-endian order. -/
theorem imm_forms (i : Instr) (rm : RegMem) (imm regv : Nat) (s s1 : State)
    (hform : i.immForm = some (rm, imm, regv)) (hrm : rm.rm ≤ 15) (himm : imm < 2 ^ 32)
    (h : exec i s = some s1) :
    (∀ r, exec (i.withOperand { rm with reg := r }) s = exec i s) ∧
    (∃ rex op modrm mid,
      emittedFrom s.wptr s1 = rex :: op :: modrm :: (mid ++ leBytes imm 4) ∧
      (modrm >>> 3) &&& 7 = regv ∧ (rex >>> 2) &&& 1 = 0) ∧
    leValue (leBytes imm 4) = imm := by
  obtain ⟨hv, op, he⟩ := immForm_emits hform hrm h
  refine ⟨?_, ⟨_, op, _, _, he, ?_, rex_reg_bit_clear regv rm.rm hv hrm⟩, ?_⟩
  · intro r
    cases i <;>
      simp only [Instr.immForm, Option.some.injEq, Prod.mk.injEq, reduceCtorEq] at hform
    all_goals
      obtain ⟨rfl, rfl, rfl⟩ := hform
      rfl
  · exact (modrm_reg_field rm.mod regv rm.rm).trans (and7_of_le regv hv)
  · rw [leValue_leBytes_4, Nat.mod_eq_of_lt himm]

/-- Witness for C18:
`SubRMImm({.mod=INDIRECT_8, .reg=R9, .rm=RBP, .disp8=-0x10}, 0x12345678)` emits
`48 81 6D F0 78 56 34 12`, the same as with `reg = RAX`. -/
theorem imm_forms_witness :
    ((Instr.SubRMImm { mod := INDIRECT_8, reg := R9, rm := RBP, disp := disp8Cell (-0x10) }
          0x12345678).immForm
        = some ({ mod := INDIRECT_8, reg := R9, rm := RBP, disp := disp8Cell (-0x10) },
            0x12345678, 5) ∧
      RBP ≤ 15 ∧ 0x12345678 < 2 ^ 32 ∧
      exec (Instr.SubRMImm { mod := INDIRECT_8, reg := R9, rm := RBP, disp := disp8Cell (-0x10) }
          0x12345678) main_s0 = some after_SubRMImm) ∧
    emittedFrom main_s0.wptr after_SubRMImm = [0x48, 0x81, 0x6D, 0xF0, 0x78, 0x56, 0x34, 0x12] ∧
    exec (Instr.SubRMImm { mod := INDIRECT_8, reg := RAX, rm := RBP, disp := disp8Cell (-0x10) }
        0x12345678) main_s0
      = exec (Instr.SubRMImm { mod := INDIRECT_8, reg := R9, rm := RBP, disp := disp8Cell (-0x10) }
        0x12345678) main_s0 :=
  have h : exec (Instr.SubRMImm
      { mod := INDIRECT_8, reg := R9, rm := RBP, disp := disp8Cell (-0x10) } 0x12345678) main_s0
      = some after_SubRMImm := some_getD_of_isSome (by decide)
  ⟨⟨rfl, by decide, by decide, h⟩, by decide,
    (imm_forms
      (Instr.SubRMImm { mod := INDIRECT_8, reg := R9, rm := RBP, disp := disp8Cell (-0x10) }
        0x12345678)
      { mod := INDIRECT_8, reg := R9, rm := RBP, disp := disp8Cell (-0x10) } 0x12345678 5
      main_s0 after_SubRMImm rfl (by decide) (by decide) h).1 RAX⟩

/-! ## Scale, index and base -/

theorem EmitREX_congr {rm rm1 : RegMem} (hreg : rm1.reg = rm.reg) (hrm : rm1.rm = rm.rm)
    (s : State) : EmitREX rm1 s = EmitREX rm s := by
  unfold EmitREX
  rw [hreg, hrm]

theorem EmitModRM_congr {rm rm1 : RegMem} (hmod : rm1.mod = rm.mod) (hreg : rm1.reg = rm.reg)
    (hrm : rm1.rm = rm.rm) (hdisp : rm1.disp = rm.disp)
    (hsib : rm.rm = RSP ∧ rm.mod ≠ DIRECT →
      rm1.scale &&& 3 = rm.scale &&& 3 ∧ rm1.index &&& 7 = rm.index &&& 7 ∧
        rm1.base &&& 7 = rm.base &&& 7)
    (s : State) : EmitModRM rm1 s = EmitModRM rm s := by
  unfold EmitModRM
  have h8 : rm1.disp8 = rm.disp8 := by unfold RegMem.disp8; rw [hdisp]
  have h32 : rm1.disp32 = rm.disp32 := by unfold RegMem.disp32; rw [hdisp]
  rw [hmod, hreg, hrm, h8, h32]
  by_cases hc : rm.rm = RSP ∧ rm.mod ≠ DIRECT
  · obtain ⟨e1, e2, e3⟩ := hsib hc
    simp only [if_pos hc]
    rw [e1, e2, e3]
  · simp only [if_neg hc]

theorem EmitModRMOpcode_congr {rm rm1 : RegMem} (hmod : rm1.mod = rm.mod)
    (hreg : rm1.reg = rm.reg) (hrm : rm1.rm = rm.rm) (hdisp : rm1.disp = rm.disp)
    (hsib : rm.rm = RSP ∧ rm.mod ≠ DIRECT →
      rm1.scale &&& 3 = rm.scale &&& 3 ∧ rm1.index &&& 7 = rm.index &&& 7 ∧
        rm1.base &&& 7 = rm.base &&& 7)
    (op : Nat) (s : State) : EmitModRMOpcode rm1 op s = EmitModRMOpcode rm op s := by
  unfold EmitModRMOpcode
  rw [EmitREX_congr hreg hrm s]
  have hm : EmitModRM rm1 = EmitModRM rm := funext (EmitModRM_congr hmod hreg hrm hdisp hsib)
  rw [hm]

theorem exec_withOperand_congr {i : Instr} {rm rm1 : RegMem} (hop : i.operand = some rm)
    (hmod : rm1.mod = rm.mod) (hreg : rm1.reg = rm.reg) (hrm : rm1.rm = rm.rm)
    (hdisp : rm1.disp = rm.disp)
    (hsib : rm.rm = RSP ∧ rm.mod ≠ DIRECT →
      rm1.scale &&& 3 = rm.scale &&& 3 ∧ rm1.index &&& 7 = rm.index &&& 7 ∧
        rm1.base &&& 7 = rm.base &&& 7)
    (s : State) : exec (i.withOperand rm1) s = exec i s := by
  have hMI : ∀ op regv imm, INST_MI op regv rm1 imm s = INST_MI op regv rm imm s := by
    intro op regv imm
    unfold INST_MI
    simp only
    rw [@EmitModRMOpcode_congr { rm with reg := regv } { rm1 with reg := regv }
      hmod rfl hrm hdisp hsib op s]
  have hRM : ∀ op, INST_RM op rm1 s = INST_RM op rm s :=
    fun op => EmitModRMOpcode_congr hmod hreg hrm hdisp hsib op s
  have hM : ∀ op regv, INST_M op regv rm1 s = INST_M op regv rm s := by
    intro op regv
    unfold INST_M
    simp only
    have hm : EmitModRM { rm1 with reg := regv } = EmitModRM { rm with reg := regv } :=
      funext (@EmitModRM_congr { rm with reg := regv } { rm1 with reg := regv }
        hmod rfl hrm hdisp hsib)
    rw [hm]
  cases i <;> simp only [Instr.operand, Option.some.injEq, reduceCtorEq] at hop
  case MovRMImm rm0 imm => subst hop; exact hMI _ _ _
  case AddRMImm rm0 imm => subst hop; exact hMI _ _ _
  case SubRMImm rm0 imm => subst hop; exact hMI _ _ _
  case CmpRMImm rm0 imm => subst hop; exact hMI _ _ _
  case Call rm0 => subst hop; exact hM _ _
  all_goals
    subst hop
    exact hRM _

theorem add8_and7 (x : Nat) : (x + 8) &&& 7 = x &&& 7 := by
  have e : (7 : Nat) = 2 ^ 3 - 1 := by norm_num
  rw [e, Nat.and_pow_two_sub_one_eq_mod, Nat.and_pow_two_sub_one_eq_mod]
  omega

/-- C20: take any of the catalog instructions with an operand descriptor `rm`, and a
second descriptor `rm1` with the same `mod`, `reg`, `rm` and displacement.  The REX
prefix is the same for both, whatever their scale, index and base.  If
`rm == RSP` and the mode is indirect, the call is the same as soon as `scale & 3`,
`index & 7` and `base & 7` agree; in particular replacing `index` by `index + 8` or
`base` by `base + 8` gives a byte-for-byte identical encoding.  If `rm != RSP` or the
mode is direct, the call is the same whatever scale, index and base are. -/
theorem sib_fields_masked (i : Instr) (rm rm1 : RegMem) (s : State)
    (hop : i.operand = some rm) (hmod : rm1.mod = rm.mod) (hreg : rm1.reg = rm.reg)
    (hrm : rm1.rm = rm.rm) (hdisp : rm1.disp = rm.disp) :
    EmitREX rm1 s = EmitREX rm s ∧
    (rm.rm = RSP ∧ rm.mod ≠ DIRECT →
      rm1.scale &&& 3 = rm.scale &&& 3 → rm1.index &&& 7 = rm.index &&& 7 →
      rm1.base &&& 7 = rm.base &&& 7 →
      exec (i.withOperand rm1) s = exec i s) ∧
    (¬ (rm.rm = RSP ∧ rm.mod ≠ DIRECT) → exec (i.withOperand rm1) s = exec i s) ∧
    exec (i.withOperand { rm with index := rm.index + 8 }) s = exec i s ∧
    exec (i.withOperand { rm with base := rm.base + 8 }) s = exec i s := by
  refine ⟨EmitREX_congr hreg hrm s, ?_, ?_, ?_, ?_⟩
  · intro _ e1 e2 e3
    exact exec_withOperand_congr hop hmod hreg hrm hdisp (fun _ => ⟨e1, e2, e3⟩) s
  · intro hc
    exact exec_withOperand_congr hop hmod hreg hrm hdisp (fun h => absurd h hc) s
  · exact @exec_withOperand_congr i rm { rm with index := rm.index + 8 } hop rfl rfl rfl rfl
      (fun _ => ⟨rfl, add8_and7 rm.index, rfl⟩) s
  · exact @exec_withOperand_congr i rm { rm with base := rm.base + 8 } hop rfl rfl rfl rfl
      (fun _ => ⟨rfl, rfl, add8_and7 rm.base⟩) s

/-- Witness for C20: the scaled-index operand of line 229 of `main`
(`index = RAX`, `base = RBP`) and the same operand with `index = R8`, `base = R13`,
`scale = 7`: `MovRegRM` emits `48 8B 44 C5 C0` for both. -/
theorem sib_fields_masked_witness :
    ((Instr.MovRegRM main_sib_operand).operand = some main_sib_operand ∧
      ({ main_sib_operand with scale := 7, index := R8, base := R13 } : RegMem).mod
        = main_sib_operand.mod ∧
      ({ main_sib_operand with scale := 7, index := R8, base := R13 } : RegMem).reg
        = main_sib_operand.reg ∧
      ({ main_sib_operand with scale := 7, index := R8, base := R13 } : RegMem).rm
        = main_sib_operand.rm ∧
      ({ main_sib_operand with scale := 7, index := R8, base := R13 } : RegMem).disp
        = main_sib_operand.disp) ∧
    exec (Instr.MovRegRM { main_sib_operand with scale := 7, index := R8, base := R13 }) main_s0
      = exec (Instr.MovRegRM main_sib_operand) main_s0 ∧
    (exec (Instr.MovRegRM main_sib_operand) main_s0).map (emittedFrom main_s0.wptr)
      = some [0x48, 0x8B, 0x44, 0xC5, 0xC0] :=
  ⟨⟨rfl, rfl, rfl, rfl, rfl⟩,
    (sib_fields_masked (Instr.MovRegRM main_sib_operand) main_sib_operand
      { main_sib_operand with scale := 7, index := R8, base := R13 } main_s0
      rfl rfl rfl rfl rfl).2.1 (by decide) (by decide) (by decide) (by decide),
    by decide⟩

end JIT
